import Mathlib

/-!
# Rope nodes: `leaf` and `concat`

A shallow embedding of `rope/leaf.go` and `rope/concat.go`.

* A Go `string` is a sequence of bytes: `List UInt8`.
* `int64` values are integers in `[-2^63, 2^63)`; every `+` and `-` of the
  source on `int64` operands is followed by `wrap64`, Go's two's-complement
  wrap-around.
* `rLenT` is `uint32`: the stored cache is a natural number, and the
  conversion `rLenT(x)` is reduction modulo `2^32`.
* A Go slice expression `l[a:b]` panics when its indices are out of range;
  the operations that contain one return an `Option`, `none` being the panic.
* Lengths are counted in `int64`: a well-formed node (`node.WF`) has at most
  `maxInt64` bytes of content.
-/

namespace Rope

/-! ## Machine integers -/

/-- Smallest `int64`. -/
def minInt64 : Int := -(2 ^ 63)

/-- Largest `int64`. -/
def maxInt64 : Int := 2 ^ 63 - 1

/-- Membership in the range of `int64`. -/
def isInt64 (x : Int) : Prop := minInt64 ≤ x ∧ x ≤ maxInt64

instance (x : Int) : Decidable (isInt64 x) := by
  unfold isInt64; exact inferInstance

/-- Two's-complement wrap-around of a mathematical integer to `int64`:
what Go's `+` and `-` on `int64` return. -/
def wrap64 (x : Int) : Int := (x + 2 ^ 63) % 2 ^ 64 - 2 ^ 63

/-- The largest `rLenT` (`uint32`) value, `^rLenT(0)`. -/
def maxRLen : Int := 2 ^ 32 - 1

/-- The conversion `rLenT(x)` of an `int64` to `uint32`. -/
def toRLenT (x : Int) : Nat := (x % 2 ^ 32).toNat

/-! ## Nodes -/

/-- Modelled from the spec: the interface `node` and the type `depthT` are
declared outside the given sources. A node is one of the two implementations
given, `leaf` (a string) or `concat` (the struct of `concat.go`); the depth
is "an integer", taken here as a natural number.

`concat left right split rLen treedepth` lists the struct fields in the
order `left, right, split, rLen, treedepth`. -/
inductive node where
  | leaf (l : List UInt8) : node
  | concat (left right : node) (split : Int) (rLen : Nat) (treedepth : Nat) : node
  deriving DecidableEq, Repr

/-- Modelled from the spec: the variable `emptyNode` is declared outside the
given sources. It is the canonical zero-length node; the tests compare the
results that are `emptyNode` with `leaf("")`. -/
def emptyNode : node := node.leaf []

namespace node

/-- `leaf.depth` and `concat.depth`. -/
def depth : node → Nat
  | leaf _ => 0
  | concat _ _ _ _ treedepth => treedepth

/-- `leaf.length` and `concat.length`; the second is
`c.split + c.rLength()`, where `rLength` is the cache when it is positive and
`c.right.length()` otherwise. -/
def length : node → Int
  | leaf l => (l.length : Int)
  | concat _ right split rLen _ =>
      wrap64 (split + (if rLen > 0 then (rLen : Int) else right.length))

end node

/-- `concat.rLength`, as a function of the fields `right` and `rLen`. -/
def rLength (right : node) (rLen : Nat) : Int :=
  if rLen > 0 then (rLen : Int) else right.length

/-- The function `conc`. -/
def conc (lhs rhs : node) (lhsLength rhsLength : Int) : node :=
  if lhs = emptyNode then rhs
  else if rhs = emptyNode then lhs
  else
    let depth := lhs.depth
    let depth := if rhs.depth > depth then rhs.depth else depth
    let lhsLength := if lhsLength ≤ 0 then lhs.length else lhsLength
    let rhsLength := if rhsLength ≤ 0 then rhs.length else rhsLength
    let rhsLength := if rhsLength > maxRLen then 0 else rhsLength
    node.concat lhs rhs lhsLength (toRLenT rhsLength) (depth + 1)

/-- The Go slice expression `l[lo:hi]` on a string: a run-time panic (`none`)
unless `0 ≤ lo ≤ hi ≤ len(l)`. -/
def goSlice (l : List UInt8) (lo hi : Int) : Option (List UInt8) :=
  if 0 ≤ lo ∧ lo ≤ hi ∧ hi ≤ (l.length : Int) then
    some ((l.drop lo.toNat).take (hi - lo).toNat)
  else none

namespace node

/-- `leaf.slice` and `concat.slice`. -/
def slice : node → Int → Int → Option node
  | leaf l, start, end_ =>
      let start := if start < 0 then 0 else start
      let end_ := if end_ > (l.length : Int) then (l.length : Int) else end_
      if start ≥ end_ then some emptyNode
      else (goSlice l start end_).map leaf
  | concat left right split rLen treedepth, start, end_ =>
      if start > split then
        right.slice (wrap64 (start - split)) (wrap64 (end_ - split))
      else if end_ ≤ split then
        left.slice start end_
      else
        let clength := wrap64 (split + right.length)
        if start ≤ 0 ∧ end_ ≥ clength then
          some (concat left right split rLen treedepth)
        else
          let newLeft : Option node :=
            if start > 0 ∨ end_ < split then left.slice start end_ else some left
          let leftLen : Int := if start > 0 ∨ end_ < split then -1 else split
          let newRight : Option node :=
            if start > split ∨ end_ < clength then
              right.slice (wrap64 (start - split)) (wrap64 (end_ - split))
            else some right
          let rightLen : Int :=
            if start > split ∨ end_ < clength then -1 else (rLen : Int)
          match newLeft, newRight with
          | some l, some r => some (conc l r leftLen rightLen)
          | _, _ => none

/-- `leaf.dropPrefix` and `concat.dropPrefix`. -/
def dropPrefix : node → Int → Option node
  | leaf l, start =>
      if start ≥ (l.length : Int) then some emptyNode
      else if start ≤ 0 then some (leaf l)
      else (goSlice l start (l.length : Int)).map leaf
  | concat left right split rLen treedepth, start =>
      if start ≤ 0 then some (concat left right split rLen treedepth)
      else if start < split then
        match left.dropPrefix start with
        | some l => some (conc l right (wrap64 (split - start)) (rLen : Int))
        | none => none
      else right.dropPrefix (wrap64 (start - split))

/-- `leaf.dropPostfix` and `concat.dropPostfix`. -/
def dropPostfix : node → Int → Option node
  | leaf l, end_ =>
      if end_ ≥ (l.length : Int) then some (leaf l)
      else if end_ ≤ 0 then some emptyNode
      else (goSlice l 0 end_).map leaf
  | concat left right split rLen treedepth, end_ =>
      if end_ ≤ 0 then some emptyNode
      else if end_ ≤ split then left.dropPostfix end_
      else if end_ ≥ wrap64 (split + rLength right rLen) then
        some (concat left right split rLen treedepth)
      else
        let end_ := wrap64 (end_ - split)
        match right.dropPostfix end_ with
        | some r => some (conc left r split end_)
        | none => none

/-! ## Specification side -/

/-- The bytes a node stands for: the leaves from left to right. -/
def content : node → List UInt8
  | leaf l => l
  | concat left right _ _ _ => left.content ++ right.content

/-- Well-formed nodes: every string and every subtree has a length that an
`int64` holds, and every `concat` has two children that are not empty, a
`split` that is the exact length of `left`, and an `rLen` that is a `uint32`,
either `0` or the exact length of `right`. -/
def WF : node → Prop
  | leaf l => (l.length : Int) ≤ maxInt64
  | concat left right split rLen _ =>
      WF left ∧ WF right ∧ left.content ≠ [] ∧ right.content ≠ [] ∧
      split = (left.content.length : Int) ∧
      (rLen = 0 ∨ rLen = right.content.length) ∧ (rLen : Int) ≤ maxRLen ∧
      ((left.content.length : Int) + (right.content.length : Int)) ≤ maxInt64

instance decWF : (n : node) → Decidable (WF n)
  | leaf l => by unfold WF; exact inferInstance
  | concat left right split rLen _ => by
      unfold WF
      have := decWF left
      have := decWF right
      exact inferInstance

/-- No `concat` in the node has a child that is `emptyNode` or that has no
content. -/
def NoEmptyChild : node → Prop
  | leaf _ => True
  | concat left right _ _ _ =>
      NoEmptyChild left ∧ NoEmptyChild right ∧
      left ≠ emptyNode ∧ right ≠ emptyNode ∧
      1 ≤ left.content.length ∧ 1 ≤ right.content.length

instance decNoEmptyChild : (n : node) → Decidable (NoEmptyChild n)
  | leaf _ => by unfold NoEmptyChild; exact inferInstance
  | concat left right _ _ _ => by
      unfold NoEmptyChild
      have := decNoEmptyChild left
      have := decNoEmptyChild right
      exact inferInstance

end node

/-- The elements `xs[lo:hi]` of a list for natural indices, empty when
`hi ≤ lo`. -/
def subseq (xs : List UInt8) (lo hi : Nat) : List UInt8 := (xs.take hi).drop lo

/-- The range `[start, end)` clamped to `[0, length]`, as the specification
of `slice` reads it: `content[max(start,0) : min(end, length)]`. -/
def clampedSub (xs : List UInt8) (start end_ : Int) : List UInt8 :=
  subseq xs (max start 0).toNat (min end_ (xs.length : Int)).toNat

/-! ## The tree of the tests -/

/-- The test's `lhs = leaf("123")`. -/
def lhs : node := node.leaf [49, 50, 51]

/-- The test's `rhs = leaf("456")`. -/
def rhs : node := node.leaf [52, 53, 54]

/-- The test's `tree = conc(lhs, rhs, 0, 0)`. -/
def tree : node := conc lhs rhs 0 0

/-- A length hint that `conc` may be given for the node `x`: not positive
(then `conc` computes the length itself) or the true length of `x`. -/
def HintOK (x : node) (hint : Int) : Prop :=
  hint ≤ 0 ∨ hint = (x.content.length : Int)

/-- The indices of a `slice` of a node of length `len` are `int64` values
that the shifts `start - split` and `end - split` of `concat.slice` never
take out of the `int64` range. -/
def ShiftSafe (len : Nat) (start end_ : Int) : Prop :=
  isInt64 start ∧ isInt64 end_ ∧
  minInt64 + min end_ (len : Int) ≤ start ∧ minInt64 + min start (len : Int) ≤ end_

/-- The nodes obtained from strings by `conc` without hints, `slice`,
`dropPrefix` and `dropPostfix`, with `int64` indices. The data model counts
lengths in `int64`: a string is at most `maxInt64` bytes long, and `conc` is
applied where the joined length is still an `int64`. -/
inductive Built : node → Prop where
  | leaf (l : List UInt8) (h : (l.length : Int) ≤ maxInt64) : Built (node.leaf l)
  | conc (a b : node) (ha : Built a) (hb : Built b)
      (h : (a.content.length : Int) + (b.content.length : Int) ≤ maxInt64) :
      Built (conc a b 0 0)
  | slice (n r : node) (start end_ : Int) (hn : Built n)
      (hs : isInt64 start) (he : isInt64 end_)
      (h : n.slice start end_ = some r) : Built r
  | dropPrefix (n r : node) (start : Int) (hn : Built n) (hs : isInt64 start)
      (h : n.dropPrefix start = some r) : Built r
  | dropPostfix (n r : node) (end_ : Int) (hn : Built n) (he : isInt64 end_)
      (h : n.dropPostfix end_ = some r) : Built r

/-! ## Writing to a sink -/

/-- Go's `io.Writer`, from the standard library: a sink is a state `σ` with
one operation, the write of a run of bytes, which returns the new state, the
number of bytes written (a Go `int`) and an error, `none` being `nil`. -/
structure Writer (σ ε : Type) where
  write : σ → List UInt8 → σ × Int × Option ε

/-- `leaf.WriteTo` and `concat.WriteTo`, from the sink state before to the
triple of the sink state after, the count `n` and the error. The leaf makes one
write, `io.WriteString(w, string(l))`, and converts its count with
`int64(n1)`; the `concat` adds the counts with `n += m`. -/
def node.WriteTo {σ ε : Type} (w : Writer σ ε) : node → σ → σ × Int × Option ε
  | node.leaf l, s =>
      let r := w.write s l
      (r.1, wrap64 r.2.1, r.2.2)
  | node.concat left right _ _ _, s =>
      let r1 := left.WriteTo w s
      let n := wrap64 (0 + r1.2.1)
      match r1.2.2 with
      | some e => (r1.1, n, some e)
      | none =>
          let r2 := right.WriteTo w r1.1
          (r2.1, wrap64 (n + r2.2.1), r2.2.2)

/-- A sink that accepts every write in full and without error; `view` reads
the bytes the sink holds. -/
def AcceptsAll {σ ε : Type} (w : Writer σ ε) (view : σ → List UInt8) : Prop :=
  ∀ s bs, view (w.write s bs).1 = view s ++ bs ∧
    (w.write s bs).2.1 = (bs.length : Int) ∧ (w.write s bs).2.2 = none

/-- The sink of the test `TestConcatWriteTo`, a `bytes.Buffer`: the state is
the bytes written so far. -/
def bufferWriter : Writer (List UInt8) Unit :=
  ⟨fun s bs => (s ++ bs, (bs.length : Int), none)⟩

/-- A sink with room for `cap` bytes in all: a write that does not fit
writes what fits and returns an error. -/
def limitedWriter (cap : Nat) : Writer (List UInt8) Unit :=
  ⟨fun s bs =>
    if s.length + bs.length ≤ cap then (s ++ bs, (bs.length : Int), none)
    else (s ++ bs.take (cap - s.length), ((bs.take (cap - s.length)).length : Int), some ())⟩

/-! ## Depth -/

/-- Every `concat` in the node stores as `treedepth` one more than the larger
depth of its two children. -/
def node.DepthOK : node → Prop
  | node.leaf _ => True
  | node.concat left right _ _ treedepth =>
      node.DepthOK left ∧ node.DepthOK right ∧ treedepth = 1 + max left.depth right.depth

instance decDepthOK : (n : node) → Decidable (node.DepthOK n)
  | node.leaf _ => by unfold node.DepthOK; exact inferInstance
  | node.concat left right _ _ _ => by
      unfold node.DepthOK
      have := decDepthOK left
      have := decDepthOK right
      exact inferInstance

/-! ## Arithmetic and list facts -/

theorem wrap64_eq_self {x : Int} (h : isInt64 x) : wrap64 x = x := by
  unfold isInt64 minInt64 maxInt64 at h
  unfold wrap64
  omega

theorem isInt64_wrap64 (x : Int) : isInt64 (wrap64 x) := by
  unfold isInt64 minInt64 maxInt64 wrap64
  omega

theorem toRLenT_eq {x : Int} (h0 : 0 ≤ x) (h1 : x ≤ maxRLen) : (toRLenT x : Int) = x := by
  unfold maxRLen at h1
  unfold toRLenT
  omega

theorem subseq_append (xs ys : List UInt8) (lo hi : Nat) :
    subseq (xs ++ ys) lo hi = subseq xs lo hi ++ subseq ys (lo - xs.length) (hi - xs.length) := by
  unfold subseq
  rw [List.take_append_eq_append_take, List.drop_append_eq_append_drop]
  rcases Nat.lt_or_ge hi xs.length with h | h
  · have h0 : hi - xs.length = 0 := by omega
    simp [h0]
  · simp [List.length_take, Nat.min_eq_right h]

theorem subseq_eq_self (xs : List UInt8) (hi : Nat) (h : xs.length ≤ hi) :
    subseq xs 0 hi = xs := by
  unfold subseq
  simp [List.take_of_length_le h]

theorem subseq_eq_nil (xs : List UInt8) (lo hi : Nat) (h : hi ≤ lo ∨ xs.length ≤ lo) :
    subseq xs lo hi = [] := by
  unfold subseq
  apply List.drop_eq_nil_of_le
  rw [List.length_take]
  omega

theorem length_subseq_le (xs : List UInt8) (lo hi : Nat) :
    (subseq xs lo hi).length ≤ xs.length := by
  unfold subseq
  rw [List.length_drop, List.length_take]
  omega

theorem clampedSub_append (xs ys : List UInt8) (s e : Int) :
    clampedSub (xs ++ ys) s e
      = clampedSub xs s e ++ clampedSub ys (s - xs.length) (e - xs.length) := by
  unfold clampedSub
  rw [subseq_append]
  congr 1
  · unfold subseq
    congr 1
    rw [List.length_append]
    rcases le_total e (xs.length : Int) with h | h
    · congr 1
      push_cast
      omega
    · rw [List.take_of_length_le, List.take_of_length_le] <;> push_cast <;> omega
  · congr 1
    · omega
    · rw [List.length_append]
      push_cast
      omega


/-! ## Basic facts about nodes -/

theorem content_emptyNode : emptyNode.content = [] := rfl

theorem content_conc (a b : node) (hl hr : Int) :
    (conc a b hl hr).content = a.content ++ b.content := by
  unfold conc
  by_cases h1 : a = emptyNode
  · simp [h1, content_emptyNode]
  · by_cases h2 : b = emptyNode
    · simp [h1, h2, content_emptyNode]
    · simp [h1, h2, node.content]

theorem node.WF.length_le {n : node} (h : n.WF) : (n.content.length : Int) ≤ maxInt64 := by
  cases n with
  | leaf l => simpa [node.WF, node.content] using h
  | concat left right split rLen d =>
    simp only [node.WF] at h
    simp only [node.content, List.length_append]
    push_cast
    exact h.2.2.2.2.2.2.2

theorem node.WF.length_eq {n : node} (h : n.WF) : n.length = (n.content.length : Int) := by
  induction n with
  | leaf l => simp [node.length, node.content]
  | concat left right split rLen d ihl ihr =>
    have hle := h.length_le
    simp only [node.WF] at h
    obtain ⟨-, hr, -, -, hs, hc, -, -⟩ := h
    simp only [node.content, List.length_append] at hle ⊢
    push_cast at hle ⊢
    simp only [node.length]
    have hrl := ihr hr
    have : (if rLen > 0 then (rLen : Int) else right.length) = (right.content.length : Int) := by
      split_ifs with h0
      · rcases hc with hc | hc
        · omega
        · rw [hc]
      · exact hrl
    rw [this, hs]
    apply wrap64_eq_self
    unfold isInt64 minInt64
    unfold maxInt64 at hle ⊢
    omega

theorem node.WF.eq_emptyNode {n : node} (h : n.WF) (hc : n.content = []) : n = emptyNode := by
  cases n with
  | leaf l => simp only [node.content] at hc; rw [hc]; rfl
  | concat left right split rLen d =>
    simp only [node.WF] at h
    simp only [node.content, List.append_eq_nil] at hc
    exact absurd hc.1 h.2.2.1

theorem node.WF.content_ne_nil {n : node} (h : n.WF) (hne : n ≠ emptyNode) : n.content ≠ [] :=
  fun hc => hne (h.eq_emptyNode hc)

theorem WF_emptyNode : emptyNode.WF := by
  simp [emptyNode, node.WF, maxInt64]

theorem conc_of_ne {a b : node} (h1 : a ≠ emptyNode) (h2 : b ≠ emptyNode) (hl hr : Int) :
    conc a b hl hr
      = node.concat a b (if hl ≤ 0 then a.length else hl)
          (toRLenT (if (if hr ≤ 0 then b.length else hr) > maxRLen then 0
                    else (if hr ≤ 0 then b.length else hr)))
          ((if b.depth > a.depth then b.depth else a.depth) + 1) := by
  simp [conc, h1, h2]

theorem conc_WF {a b : node} (ha : a.WF) (hb : b.WF) {hl hr : Int}
    (hla : HintOK a hl) (hrb : HintOK b hr)
    (hsum : (a.content.length : Int) + (b.content.length : Int) ≤ maxInt64) :
    (conc a b hl hr).WF := by
  by_cases h1 : a = emptyNode
  · simpa [conc, h1] using hb
  by_cases h2 : b = emptyNode
  · simpa [conc, h1, h2] using ha
  rw [conc_of_ne h1 h2]
  have hac := ha.content_ne_nil h1
  have hbc := hb.content_ne_nil h2
  have hbpos : 0 < b.content.length := List.length_pos.mpr hbc
  have hsplit : (if hl ≤ 0 then a.length else hl) = (a.content.length : Int) := by
    by_cases h0 : hl ≤ 0
    · rw [if_pos h0]; exact ha.length_eq
    · rw [if_neg h0]
      rcases hla with h | h
      · exact absurd h h0
      · exact h
  have hrlen : (if hr ≤ 0 then b.length else hr) = (b.content.length : Int) := by
    by_cases h0 : hr ≤ 0
    · rw [if_pos h0]; exact hb.length_eq
    · rw [if_neg h0]
      rcases hrb with h | h
      · exact absurd h h0
      · exact h
  rw [hsplit, hrlen]
  simp only [node.WF]
  refine ⟨ha, hb, hac, hbc, trivial, ?_, ?_, hsum⟩
  · by_cases hbig : (b.content.length : Int) > maxRLen
    · left; rw [if_pos hbig]; simp [toRLenT]
    · right
      rw [if_neg hbig]
      have := toRLenT_eq (x := (b.content.length : Int)) (by omega) (by omega)
      exact_mod_cast this
  · by_cases hbig : (b.content.length : Int) > maxRLen
    · rw [if_pos hbig]; simp [toRLenT, maxRLen]
    · rw [if_neg hbig, toRLenT_eq (by omega) (by omega)]
      omega


/-! ## The Go slice expression -/

theorem goSlice_eq_some (l : List UInt8) {lo hi : Int}
    (h0 : 0 ≤ lo) (h1 : lo ≤ hi) (h2 : hi ≤ (l.length : Int)) :
    goSlice l lo hi = some (subseq l lo.toNat hi.toNat) := by
  unfold goSlice subseq
  rw [if_pos ⟨h0, h1, h2⟩, List.drop_take]
  congr 3
  omega

/-! ## `dropPrefix` and `dropPostfix` on well-formed nodes -/

theorem node.dropPrefix_spec {n : node} (h : n.WF) (start : Int) (hs : isInt64 start) :
    ∃ r, n.dropPrefix start = some r ∧ r.WF ∧
      r.content = n.content.drop start.toNat ∧ (start ≤ 0 → r = n) := by
  induction n generalizing start with
  | leaf l =>
    simp only [node.dropPrefix, node.content]
    by_cases h1 : start ≥ (l.length : Int)
    · rw [if_pos h1]
      refine ⟨emptyNode, rfl, WF_emptyNode, ?_, ?_⟩
      · rw [content_emptyNode, List.drop_eq_nil_of_le (by omega)]
      · intro h0
        have : l.length = 0 := by omega
        rw [List.length_eq_zero.mp this]; rfl
    · rw [if_neg h1]
      by_cases h2 : start ≤ 0
      · rw [if_pos h2]
        refine ⟨node.leaf l, rfl, h, ?_, fun _ => rfl⟩
        have : start.toNat = 0 := by omega
        simp [node.content, this]
      · rw [if_neg h2, goSlice_eq_some l (by omega) (by omega) (le_refl _)]
        refine ⟨_, rfl, ?_, ?_, fun h0 => absurd h0 h2⟩
        · simp only [node.WF] at h ⊢
          have := length_subseq_le l start.toNat (l.length : Int).toNat
          omega
        · simp only [node.content, subseq]
          rw [List.take_of_length_le (by omega)]
  | concat left right split rLen d ihl ihr =>
    have hle := h.length_le
    simp only [node.WF] at h
    obtain ⟨hwl, hwr, hlne, hrne, hsp, hc, hcm, hsum⟩ := h
    have hlpos : 0 < left.content.length := List.length_pos.mpr hlne
    have hsum' := hsum
    unfold isInt64 minInt64 maxInt64 at hs
    unfold maxInt64 at hsum'
    simp only [node.dropPrefix, node.content]
    by_cases h1 : start ≤ 0
    · rw [if_pos h1]
      refine ⟨_, rfl, ?_, ?_, fun _ => rfl⟩
      · simp only [node.WF]; exact ⟨hwl, hwr, hlne, hrne, hsp, hc, hcm, hsum⟩
      · have : start.toNat = 0 := by omega
        simp [node.content, this]
    · rw [if_neg h1]
      by_cases h2 : start < split
      · rw [if_pos h2]
        obtain ⟨l', hl', hwl', hcl', -⟩ := ihl hwl start (by unfold isInt64 minInt64 maxInt64; omega)
        rw [hl']
        have hlen' : l'.content.length = left.content.length - start.toNat := by
          rw [hcl', List.length_drop]
        refine ⟨_, rfl, ?_, ?_, fun h0 => absurd h0 h1⟩
        · apply conc_WF hwl' hwr
          · right
            rw [wrap64_eq_self (by unfold isInt64 minInt64 maxInt64; omega), hlen']
            omega
          · rcases hc with hc | hc
            · left; omega
            · right; rw [hc]
          · rw [hlen']; unfold maxInt64; omega
        · rw [content_conc, hcl', List.drop_append_of_le_length (by omega)]
      · rw [if_neg h2]
        have hw : wrap64 (start - split) = start - split :=
          wrap64_eq_self (by unfold isInt64 minInt64 maxInt64; omega)
        rw [hw]
        obtain ⟨r', hr', hwr', hcr', -⟩ :=
          ihr hwr (start - split) (by unfold isInt64 minInt64 maxInt64; omega)
        refine ⟨r', hr', hwr', ?_, fun h0 => absurd h0 h1⟩
        have hnil : List.drop start.toNat left.content = [] :=
          List.drop_eq_nil_of_le (by omega)
        rw [hcr', List.drop_append_eq_append_drop, hnil, List.nil_append]
        congr 1
        omega


theorem rLength_eq {right : node} {rLen : Nat} (hwr : right.WF)
    (hc : rLen = 0 ∨ rLen = right.content.length) :
    rLength right rLen = (right.content.length : Int) := by
  unfold rLength
  by_cases h0 : rLen > 0
  · rw [if_pos h0]
    rcases hc with hc | hc
    · omega
    · rw [hc]
  · rw [if_neg h0]; exact hwr.length_eq

theorem node.dropPostfix_spec {n : node} (h : n.WF) (end_ : Int) (he : isInt64 end_) :
    ∃ r, n.dropPostfix end_ = some r ∧ r.WF ∧
      r.content = n.content.take end_.toNat ∧
      (end_ ≥ n.length → r = n) ∧ (end_ ≤ 0 → r = emptyNode) := by
  induction n generalizing end_ with
  | leaf l =>
    simp only [node.dropPostfix, node.content, node.length]
    by_cases h1 : end_ ≥ (l.length : Int)
    · rw [if_pos h1]
      refine ⟨node.leaf l, rfl, h, ?_, fun _ => rfl, ?_⟩
      · simp only [node.content]
        rw [List.take_of_length_le (by omega)]
      · intro h0
        have : l.length = 0 := by omega
        rw [List.length_eq_zero.mp this]; rfl
    · rw [if_neg h1]
      by_cases h2 : end_ ≤ 0
      · rw [if_pos h2]
        refine ⟨emptyNode, rfl, WF_emptyNode, ?_, fun h0 => absurd h0 h1, fun _ => rfl⟩
        have : end_.toNat = 0 := by omega
        simp [content_emptyNode, this]
      · rw [if_neg h2, goSlice_eq_some l (le_refl _) (by omega) (by omega)]
        refine ⟨_, rfl, ?_, ?_, fun h0 => absurd h0 h1, fun h0 => absurd h0 h2⟩
        · simp only [node.WF] at h ⊢
          have := length_subseq_le l (0 : Int).toNat end_.toNat
          omega
        · simp [node.content, subseq]
  | concat left right split rLen d ihl ihr =>
    have hlen := h.length_eq
    simp only [node.WF] at h
    obtain ⟨hwl, hwr, hlne, hrne, hsp, hc, hcm, hsum⟩ := h
    have hlpos : 0 < left.content.length := List.length_pos.mpr hlne
    have hrpos : 0 < right.content.length := List.length_pos.mpr hrne
    have hsum' := hsum
    unfold isInt64 minInt64 maxInt64 at he
    unfold maxInt64 at hsum'
    simp only [node.content, List.length_append] at hlen
    push_cast at hlen
    simp only [node.dropPostfix, node.content]
    rw [hlen, rLength_eq hwr hc,
      wrap64_eq_self (x := split + (right.content.length : Int))
        (by unfold isInt64 minInt64 maxInt64; omega)]
    by_cases h1 : end_ ≤ 0
    · rw [if_pos h1]
      refine ⟨emptyNode, rfl, WF_emptyNode, ?_, fun h0 => ?_, fun _ => rfl⟩
      · have : end_.toNat = 0 := by omega
        simp [content_emptyNode, this]
      · omega
    · rw [if_neg h1]
      by_cases h2 : end_ ≤ split
      · rw [if_pos h2]
        obtain ⟨l', hl', hwl', hcl', -, -⟩ :=
          ihl hwl end_ (by unfold isInt64 minInt64 maxInt64; omega)
        refine ⟨l', hl', hwl', ?_, fun h0 => ?_, fun h0 => absurd h0 h1⟩
        · rw [hcl', List.take_append_of_le_length (by omega)]
        · omega
      · rw [if_neg h2]
        by_cases h3 : end_ ≥ split + (right.content.length : Int)
        · rw [if_pos h3]
          refine ⟨_, rfl, ?_, ?_, fun _ => rfl, fun h0 => absurd h0 h1⟩
          · simp only [node.WF]; exact ⟨hwl, hwr, hlne, hrne, hsp, hc, hcm, hsum⟩
          · simp only [node.content]
            rw [List.take_of_length_le (by rw [List.length_append]; omega)]
        · rw [if_neg h3]
          have hw : wrap64 (end_ - split) = end_ - split :=
            wrap64_eq_self (by unfold isInt64 minInt64 maxInt64; omega)
          simp only [hw]
          obtain ⟨r', hr', hwr', hcr', -, -⟩ :=
            ihr hwr (end_ - split) (by unfold isInt64 minInt64 maxInt64; omega)
          rw [hr']
          have hlen' : r'.content.length = (end_ - split).toNat := by
            rw [hcr', List.length_take]; omega
          refine ⟨_, rfl, ?_, ?_, fun h0 => ?_, fun h0 => absurd h0 h1⟩
          · apply conc_WF hwl hwr'
            · right; exact hsp
            · right; rw [hlen']; omega
            · rw [hlen']; unfold maxInt64; omega
          · rw [content_conc, hcr', List.take_append_eq_append_take,
              List.take_of_length_le (l := left.content) (by omega)]
            congr 2
            omega
          · omega


/-! ## `slice` on well-formed nodes -/

theorem clampedSub_eq_self (xs : List UInt8) {s e : Int}
    (hs : s ≤ 0) (he : (xs.length : Int) ≤ e) : clampedSub xs s e = xs := by
  unfold clampedSub
  have h1 : (max s 0).toNat = 0 := by omega
  rw [h1]
  exact subseq_eq_self xs _ (by omega)

theorem clampedSub_eq_nil (xs : List UInt8) {s e : Int}
    (h : min e (xs.length : Int) ≤ max s 0) : clampedSub xs s e = [] := by
  unfold clampedSub
  apply subseq_eq_nil
  omega

theorem node.slice_spec {n : node} (h : n.WF) (start end_ : Int) :
    ∃ r, n.slice start end_ = some r ∧ r.WF ∧
      r.content.length ≤ n.content.length ∧
      (ShiftSafe n.content.length start end_ →
        r.content = clampedSub n.content start end_) ∧
      (start ≤ 0 → (n.content.length : Int) ≤ end_ → r = n) := by
  induction n generalizing start end_ with
  | leaf l =>
    simp only [node.slice, node.content]
    have hs' : (if start < 0 then 0 else start) = max start 0 := by
      split_ifs <;> omega
    have he' : (if end_ > (l.length : Int) then (l.length : Int) else end_)
        = min end_ (l.length : Int) := by
      split_ifs <;> omega
    rw [hs', he']
    by_cases h1 : max start 0 ≥ min end_ (l.length : Int)
    · rw [if_pos h1]
      refine ⟨emptyNode, rfl, WF_emptyNode, by simp [content_emptyNode], fun _ => ?_,
        fun h0 h2 => ?_⟩
      · rw [content_emptyNode, clampedSub_eq_nil l (by omega)]
      · have : l.length = 0 := by omega
        rw [List.length_eq_zero.mp this]; rfl
    · rw [if_neg h1, goSlice_eq_some l (by omega) (by omega) (by omega)]
      refine ⟨_, rfl, ?_, length_subseq_le _ _ _, fun _ => rfl, fun h0 h2 => ?_⟩
      · simp only [node.WF] at h ⊢
        have := length_subseq_le l (max start 0).toNat (min end_ (l.length : Int)).toNat
        omega
      · have := clampedSub_eq_self l h0 h2
        unfold clampedSub at this
        simp only [Option.map_some', this]
  | concat left right split rLen d ihl ihr =>
    have hwf := h
    simp only [node.WF] at h
    obtain ⟨hwl, hwr, hlne, hrne, hsp, hc, hcm, hsum⟩ := h
    have hlpos : 0 < left.content.length := List.length_pos.mpr hlne
    have hrpos : 0 < right.content.length := List.length_pos.mpr hrne
    have hsum' := hsum
    unfold maxInt64 at hsum'
    have hcl : wrap64 (split + right.length)
        = (left.content.length : Int) + (right.content.length : Int) := by
      rw [hwr.length_eq, hsp]
      exact wrap64_eq_self (by unfold isInt64 minInt64 maxInt64; omega)
    simp only [node.slice, node.content, List.length_append, hcl]
    by_cases hA : start > split
    · -- only the right side
      rw [if_pos hA]
      obtain ⟨r, hr, hwr', hlen, hcont, -⟩ :=
        ihr hwr (wrap64 (start - split)) (wrap64 (end_ - split))
      refine ⟨r, hr, hwr', by omega, fun hsafe => ?_, fun h0 _ => by omega⟩
      obtain ⟨hs1, hs2, hs3, hs4⟩ := hsafe
      unfold isInt64 minInt64 maxInt64 at hs1 hs2
      unfold minInt64 at hs3 hs4
      push_cast at hs3 hs4
      have hw1 : wrap64 (start - split) = start - split :=
        wrap64_eq_self (by unfold isInt64 minInt64 maxInt64; omega)
      have hw2 : wrap64 (end_ - split) = end_ - split :=
        wrap64_eq_self (by unfold isInt64 minInt64 maxInt64; omega)
      rw [hw1, hw2] at hcont
      rw [hcont ⟨by unfold isInt64 minInt64 maxInt64; omega,
          by unfold isInt64 minInt64 maxInt64; omega,
          by unfold minInt64; omega, by unfold minInt64; omega⟩,
        clampedSub_append, clampedSub_eq_nil left.content (by omega), List.nil_append, hsp]
    · rw [if_neg hA]
      by_cases hB : end_ ≤ split
      · -- only the left side
        rw [if_pos hB]
        obtain ⟨r, hr, hwl', hlen, hcont, -⟩ := ihl hwl start end_
        refine ⟨r, hr, hwl', by omega, fun hsafe => ?_, fun _ h2 => by omega⟩
        obtain ⟨hs1, hs2, hs3, hs4⟩ := hsafe
        unfold minInt64 at hs3 hs4
        push_cast at hs3 hs4
        rw [hcont ⟨hs1, hs2, by unfold minInt64; omega, by unfold minInt64; omega⟩,
          clampedSub_append,
          clampedSub_eq_nil right.content (s := start - (left.content.length : Int))
            (e := end_ - (left.content.length : Int)) (by omega),
          List.append_nil]
      · rw [if_neg hB]
        by_cases hC : start ≤ 0 ∧ end_ ≥ (left.content.length : Int) + (right.content.length : Int)
        · -- the whole node
          rw [if_pos hC]
          refine ⟨_, rfl, hwf, by simp [node.content], fun _ => ?_, fun _ _ => rfl⟩
          simp only [node.content]
          rw [clampedSub_eq_self _ hC.1 (by rw [List.length_append]; push_cast; omega)]
        · -- across the split
          rw [if_neg hC]
          have hL : ∃ l', (if start > 0 ∨ end_ < split then left.slice start end_ else some left)
              = some l' ∧ l'.WF ∧ l'.content.length ≤ left.content.length ∧
              HintOK l' (if start > 0 ∨ end_ < split then -1 else split) ∧
              (ShiftSafe (left.content.length + right.content.length) start end_ →
                l'.content = clampedSub left.content start end_) := by
            by_cases hc1 : start > 0 ∨ end_ < split
            · rw [if_pos hc1, if_pos hc1]
              obtain ⟨r, hr, hwl', hlen, hcont, -⟩ := ihl hwl start end_
              refine ⟨r, hr, hwl', hlen, Or.inl (by omega), fun hsafe => ?_⟩
              obtain ⟨hs1, hs2, hs3, hs4⟩ := hsafe
              unfold minInt64 at hs3 hs4
              push_cast at hs3 hs4
              exact hcont ⟨hs1, hs2, by unfold minInt64; omega, by unfold minInt64; omega⟩
            · rw [if_neg hc1, if_neg hc1]
              refine ⟨left, rfl, hwl, le_refl _, Or.inr hsp, fun _ => ?_⟩
              rw [clampedSub_eq_self _ (by omega) (by omega)]
          have hR : ∃ r', (if start > split ∨
                end_ < (left.content.length : Int) + (right.content.length : Int)
              then right.slice (wrap64 (start - split)) (wrap64 (end_ - split)) else some right)
              = some r' ∧ r'.WF ∧ r'.content.length ≤ right.content.length ∧
              HintOK r' (if start > split ∨
                end_ < (left.content.length : Int) + (right.content.length : Int)
                then -1 else (rLen : Int)) ∧
              (ShiftSafe (left.content.length + right.content.length) start end_ →
                r'.content = clampedSub right.content (start - (left.content.length : Int))
                  (end_ - (left.content.length : Int))) := by
            by_cases hc1 : start > split ∨
                end_ < (left.content.length : Int) + (right.content.length : Int)
            · rw [if_pos hc1, if_pos hc1]
              obtain ⟨r, hr, hwr', hlen, hcont, -⟩ :=
                ihr hwr (wrap64 (start - split)) (wrap64 (end_ - split))
              refine ⟨r, hr, hwr', hlen, Or.inl (by omega), fun hsafe => ?_⟩
              obtain ⟨hs1, hs2, hs3, hs4⟩ := hsafe
              unfold isInt64 minInt64 maxInt64 at hs1 hs2
              unfold minInt64 at hs3 hs4
              push_cast at hs3 hs4
              have hw1 : wrap64 (start - split) = start - split :=
                wrap64_eq_self (by unfold isInt64 minInt64 maxInt64; omega)
              have hw2 : wrap64 (end_ - split) = end_ - split :=
                wrap64_eq_self (by unfold isInt64 minInt64 maxInt64; omega)
              rw [hw1, hw2] at hcont
              rw [hcont ⟨by unfold isInt64 minInt64 maxInt64; omega,
                by unfold isInt64 minInt64 maxInt64; omega,
                by unfold minInt64; omega, by unfold minInt64; omega⟩, hsp]
            · rw [if_neg hc1, if_neg hc1]
              refine ⟨right, rfl, hwr, le_refl _, ?_, fun _ => ?_⟩
              · rcases hc with hc | hc
                · left; omega
                · right; rw [hc]
              · rw [clampedSub_eq_self _ (by omega) (by omega)]
          obtain ⟨l', hl', hwl', hll, hlh, hlc⟩ := hL
          obtain ⟨r', hr', hwr', hrl, hrh, hrc⟩ := hR
          rw [hl', hr']
          refine ⟨_, rfl, ?_, ?_, fun hsafe => ?_, fun h0 h2 => ?_⟩
          · exact conc_WF hwl' hwr' hlh hrh (by unfold maxInt64; omega)
          · rw [content_conc, List.length_append]; omega
          · rw [content_conc, clampedSub_append, hlc hsafe, hrc hsafe]
          · exact absurd ⟨h0, by push_cast at h2; omega⟩ hC


/-! ## No empty child, on arbitrary nodes -/

theorem NoEmptyChild_emptyNode : emptyNode.NoEmptyChild := by
  simp [emptyNode, node.NoEmptyChild]

theorem node.NoEmptyChild.pos {n : node} (h : n.NoEmptyChild) (hne : n ≠ emptyNode) :
    1 ≤ n.content.length := by
  cases n with
  | leaf l =>
    simp only [node.content]
    rcases l with _ | ⟨x, xs⟩
    · exact absurd rfl hne
    · simp
  | concat left right split rLen d =>
    simp only [node.NoEmptyChild] at h
    simp only [node.content, List.length_append]
    omega

theorem conc_NoEmptyChild {a b : node} (ha : a.NoEmptyChild) (hb : b.NoEmptyChild)
    (hl hr : Int) : (conc a b hl hr).NoEmptyChild := by
  by_cases h1 : a = emptyNode
  · simpa [conc, h1] using hb
  by_cases h2 : b = emptyNode
  · simpa [conc, h1, h2] using ha
  rw [conc_of_ne h1 h2]
  simp only [node.NoEmptyChild]
  exact ⟨ha, hb, h1, h2, ha.pos h1, hb.pos h2⟩

theorem node.slice_total (n : node) (start end_ : Int) :
    ∃ r, n.slice start end_ = some r ∧ (n.NoEmptyChild → r.NoEmptyChild) := by
  induction n generalizing start end_ with
  | leaf l =>
    simp only [node.slice]
    split_ifs with h1 h2 h3 h4 h5 h6
    all_goals first
      | exact ⟨emptyNode, rfl, fun _ => NoEmptyChild_emptyNode⟩
      | (rw [goSlice_eq_some l (by omega) (by omega) (by omega)]
         exact ⟨_, rfl, fun _ => by simp [node.NoEmptyChild]⟩)
  | concat left right split rLen d ihl ihr =>
    simp only [node.slice]
    obtain ⟨l', hl', hnl⟩ := ihl start end_
    obtain ⟨r', hr', hnr⟩ := ihr (wrap64 (start - split)) (wrap64 (end_ - split))
    rw [hl', hr']
    by_cases hA : start > split
    · rw [if_pos hA]
      exact ⟨r', rfl, fun h => by simp only [node.NoEmptyChild] at h; exact hnr h.2.1⟩
    rw [if_neg hA]
    by_cases hB : end_ ≤ split
    · rw [if_pos hB]
      exact ⟨l', rfl, fun h => by simp only [node.NoEmptyChild] at h; exact hnl h.1⟩
    rw [if_neg hB]
    by_cases hC : start ≤ 0 ∧ end_ ≥ wrap64 (split + right.length)
    · rw [if_pos hC]
      exact ⟨_, rfl, fun h => h⟩
    rw [if_neg hC]
    by_cases hc1 : start > 0 ∨ end_ < split <;>
    by_cases hc2 : start > split ∨ end_ < wrap64 (split + right.length) <;>
    simp only [hc1, hc2, if_true, if_false] <;>
    refine ⟨_, rfl, fun h => ?_⟩ <;>
    simp only [node.NoEmptyChild] at h <;>
    apply conc_NoEmptyChild <;>
    first | exact hnl h.1 | exact hnr h.2.1 | exact h.1 | exact h.2.1

theorem node.dropPrefix_total (n : node) (start : Int) :
    ∃ r, n.dropPrefix start = some r ∧ (n.NoEmptyChild → r.NoEmptyChild) := by
  induction n generalizing start with
  | leaf l =>
    simp only [node.dropPrefix]
    split_ifs with h1 h2
    · exact ⟨emptyNode, rfl, fun _ => NoEmptyChild_emptyNode⟩
    · exact ⟨_, rfl, fun h => h⟩
    · rw [goSlice_eq_some l (by omega) (by omega) (le_refl _)]
      exact ⟨_, rfl, fun _ => by simp [node.NoEmptyChild]⟩
  | concat left right split rLen d ihl ihr =>
    simp only [node.dropPrefix]
    obtain ⟨l', hl', hnl⟩ := ihl start
    obtain ⟨r', hr', hnr⟩ := ihr (wrap64 (start - split))
    rw [hl', hr']
    split_ifs with h1 h2
    · exact ⟨_, rfl, fun h => h⟩
    · refine ⟨_, rfl, fun h => ?_⟩
      simp only [node.NoEmptyChild] at h
      exact conc_NoEmptyChild (hnl h.1) h.2.1 _ _
    · exact ⟨r', rfl, fun h => by simp only [node.NoEmptyChild] at h; exact hnr h.2.1⟩

theorem node.dropPostfix_total (n : node) (end_ : Int) :
    ∃ r, n.dropPostfix end_ = some r ∧ (n.NoEmptyChild → r.NoEmptyChild) := by
  induction n generalizing end_ with
  | leaf l =>
    simp only [node.dropPostfix]
    split_ifs with h1 h2
    · exact ⟨_, rfl, fun h => h⟩
    · exact ⟨emptyNode, rfl, fun _ => NoEmptyChild_emptyNode⟩
    · rw [goSlice_eq_some l (le_refl _) (by omega) (by omega)]
      exact ⟨_, rfl, fun _ => by simp [node.NoEmptyChild]⟩
  | concat left right split rLen d ihl ihr =>
    simp only [node.dropPostfix]
    obtain ⟨l', hl', hnl⟩ := ihl end_
    obtain ⟨r', hr', hnr⟩ := ihr (wrap64 (end_ - split))
    rw [hl', hr']
    split_ifs with h1 h2 h3
    · exact ⟨emptyNode, rfl, fun _ => NoEmptyChild_emptyNode⟩
    · exact ⟨l', rfl, fun h => by simp only [node.NoEmptyChild] at h; exact hnl h.1⟩
    · exact ⟨_, rfl, fun h => h⟩
    · refine ⟨_, rfl, fun h => ?_⟩
      simp only [node.NoEmptyChild] at h
      exact conc_NoEmptyChild h.1 (hnr h.2.1) _ _


/-- Where no shift can wrap around, `slice` with `start < end` returns the
clamped range `content[max(start,0) : min(end, length)]`. -/
theorem node.slice_content_of_no_wrap {n : node} (h : n.WF) (start end_ : Int)
    (hs : isInt64 start) (he : isInt64 end_) (hlt : start < end_)
    (hw : minInt64 + min end_ n.length ≤ start) :
    ∃ r, n.slice start end_ = some r ∧ r.WF ∧
      r.content = clampedSub n.content start end_ := by
  obtain ⟨r, hr, hwr, -, hcont, -⟩ := node.slice_spec h start end_
  rw [h.length_eq] at hw
  refine ⟨r, hr, hwr, hcont ⟨hs, he, hw, ?_⟩⟩
  unfold minInt64
  omega

/-! ## The claims -/

/-- C1: `slice` with `start < end` does not return the clamped range for
every `int64` start. On the well-formed tree of the tests, "123" + "456", and
the range from `minInt64` to `4`, the shift `start - c.split` wraps around to
`2^63 - 3`, the right child yields `emptyNode`, and the result is the left
leaf "123", where the clamped range `content[0:4]` is "1234". -/
theorem slice_minInt64_start :
    tree.WF ∧ isInt64 minInt64 ∧ isInt64 4 ∧ minInt64 < 4 ∧
    wrap64 (minInt64 - 3) = 2 ^ 63 - 3 ∧
    tree.slice minInt64 4 = some lhs ∧
    lhs.content = [49, 50, 51] ∧
    clampedSub tree.content minInt64 4 = [49, 50, 51, 52] := by
  decide

/-- C2: on a well-formed node and for every `int64` start, `dropPrefix`
returns a node whose content is the content of `n` without its first
`max(0, min(start, length(n)))` bytes; it returns `n` itself when
`start ≤ 0` and `emptyNode` when `start ≥ length(n)`. -/
theorem dropPrefix_content (n : node) (h : n.WF) (start : Int) (hs : isInt64 start) :
    ∃ r, n.dropPrefix start = some r ∧
      r.content = n.content.drop (max 0 (min start n.length)).toNat ∧
      (start ≤ 0 → r = n) ∧ (n.length ≤ start → r = emptyNode) := by
  obtain ⟨r, hr, hwr, hc, h0⟩ := node.dropPrefix_spec h start hs
  have hlen := h.length_eq
  have hd : n.content.drop (max 0 (min start n.length)).toNat
      = n.content.drop start.toNat := by
    rw [hlen]
    by_cases hle : start ≤ (n.content.length : Int)
    · congr 1; omega
    · rw [List.drop_eq_nil_of_le (by omega), List.drop_eq_nil_of_le (by omega)]
  refine ⟨r, hr, by rw [hc, hd], h0, fun hge => ?_⟩
  apply hwr.eq_emptyNode
  rw [hc]
  apply List.drop_eq_nil_of_le
  omega

theorem dropPrefix_content_witness :
    tree.WF ∧ isInt64 2 ∧
    ∃ r, tree.dropPrefix 2 = some r ∧
      r.content = tree.content.drop (max 0 (min 2 tree.length)).toNat ∧
      ((2 : Int) ≤ 0 → r = tree) ∧ (tree.length ≤ 2 → r = emptyNode) :=
  ⟨by decide, by decide, dropPrefix_content tree (by decide) 2 (by decide)⟩

/-- C3: on a well-formed node and for every `int64` end, `dropPostfix`
returns a node whose content is the first `max(0, min(end, length(n)))` bytes
of the content of `n`; it returns `emptyNode` when `end ≤ 0` and `n` itself
when `end ≥ length(n)`. -/
theorem dropPostfix_content (n : node) (h : n.WF) (end_ : Int) (he : isInt64 end_) :
    ∃ r, n.dropPostfix end_ = some r ∧
      r.content = n.content.take (max 0 (min end_ n.length)).toNat ∧
      (end_ ≤ 0 → r = emptyNode) ∧ (n.length ≤ end_ → r = n) := by
  obtain ⟨r, hr, -, hc, hge, h0⟩ := node.dropPostfix_spec h end_ he
  have hlen := h.length_eq
  have hd : n.content.take (max 0 (min end_ n.length)).toNat
      = n.content.take end_.toNat := by
    rw [hlen]
    by_cases hle : end_ ≤ (n.content.length : Int)
    · congr 1; omega
    · rw [List.take_of_length_le (by omega), List.take_of_length_le (by omega)]
  exact ⟨r, hr, by rw [hc, hd], h0, hge⟩

theorem dropPostfix_content_witness :
    tree.WF ∧ isInt64 4 ∧
    ∃ r, tree.dropPostfix 4 = some r ∧
      r.content = tree.content.take (max 0 (min 4 tree.length)).toNat ∧
      ((4 : Int) ≤ 0 → r = emptyNode) ∧ (tree.length ≤ 4 → r = tree) :=
  ⟨by decide, by decide, dropPostfix_content tree (by decide) 4 (by decide)⟩

/-- C4: if no `concat` inside `a` and `b` has a child that is `emptyNode` or
without content, the same holds of `conc a b` with any hints, and of the
results of `slice`, `dropPrefix` and `dropPostfix` on `a` for all indices;
each of the three returns a result. -/
theorem noEmptyChild_preserved (a b : node) (ha : a.NoEmptyChild) (hb : b.NoEmptyChild)
    (lhsLength rhsLength start end_ : Int) :
    (conc a b lhsLength rhsLength).NoEmptyChild ∧
    (∃ r, a.slice start end_ = some r ∧ r.NoEmptyChild) ∧
    (∃ r, a.dropPrefix start = some r ∧ r.NoEmptyChild) ∧
    (∃ r, a.dropPostfix end_ = some r ∧ r.NoEmptyChild) := by
  refine ⟨conc_NoEmptyChild ha hb _ _, ?_, ?_, ?_⟩
  · obtain ⟨r, hr, hn⟩ := node.slice_total a start end_
    exact ⟨r, hr, hn ha⟩
  · obtain ⟨r, hr, hn⟩ := node.dropPrefix_total a start
    exact ⟨r, hr, hn ha⟩
  · obtain ⟨r, hr, hn⟩ := node.dropPostfix_total a end_
    exact ⟨r, hr, hn ha⟩

theorem noEmptyChild_preserved_witness :
    tree.NoEmptyChild ∧ rhs.NoEmptyChild ∧
    (conc tree rhs 7 (-1)).NoEmptyChild ∧
    (∃ r, tree.slice 2 5 = some r ∧ r.NoEmptyChild) ∧
    (∃ r, tree.dropPrefix 2 = some r ∧ r.NoEmptyChild) ∧
    (∃ r, tree.dropPostfix 5 = some r ∧ r.NoEmptyChild) :=
  ⟨by decide, by decide,
    noEmptyChild_preserved tree rhs (by decide) (by decide) 7 (-1) 2 5⟩


theorem Built.wf {n : node} (h : Built n) : n.WF := by
  induction h with
  | leaf l h => simpa [node.WF] using h
  | conc a b _ _ h iha ihb => exact conc_WF iha ihb (Or.inl (le_refl _)) (Or.inl (le_refl _)) h
  | slice n r start end_ _ _ _ h ih =>
    obtain ⟨r', hr', hw, -⟩ := node.slice_spec ih start end_
    rw [h] at hr'
    cases hr'
    exact hw
  | dropPrefix n r start _ hs h ih =>
    obtain ⟨r', hr', hw, -⟩ := node.dropPrefix_spec ih start hs
    rw [h] at hr'
    cases hr'
    exact hw
  | dropPostfix n r end_ _ he h ih =>
    obtain ⟨r', hr', hw, -⟩ := node.dropPostfix_spec ih end_ he
    rw [h] at hr'
    cases hr'
    exact hw

/-- C5: every node obtained from strings by `conc` without hints, `slice`,
`dropPrefix` and `dropPostfix` is well formed (every `concat` inside it has
`split` equal to the length of its left child and `rLen` either `0` or the
length of its right child), so `length()` is the number of bytes of its
content; and when it is a `concat`, the hints that `slice` (`split`, `rLen`
or `-1`), `dropPrefix` (`split - start` and `rLen`) and `dropPostfix`
(`split` and `end - split`) pass to `conc` are not positive or are the true
length of the node they describe. -/
theorem built_metadata_exact (n : node) (h : Built n) :
    n.WF ∧ n.length = (n.content.length : Int) ∧
    ∀ left right split rLen d, n = node.concat left right split rLen d →
      (HintOK left split ∧ HintOK right (rLen : Int) ∧ ∀ x : node, HintOK x (-1)) ∧
      (∀ start l', 0 < start → start < split → left.dropPrefix start = some l' →
        HintOK l' (wrap64 (split - start))) ∧
      (∀ end_ r', split < end_ → end_ < wrap64 (split + rLength right rLen) →
        right.dropPostfix (wrap64 (end_ - split)) = some r' →
        HintOK r' (wrap64 (end_ - split))) := by
  have hwf := h.wf
  refine ⟨hwf, hwf.length_eq, ?_⟩
  intro left right split rLen d hn
  subst hn
  have hlen := hwf.length_eq
  simp only [node.WF] at hwf
  obtain ⟨hwl, hwr, hlne, hrne, hsp, hc, hcm, hsum⟩ := hwf
  have hrpos : 0 < right.content.length := List.length_pos.mpr hrne
  unfold maxInt64 at hsum
  have hrl : HintOK right (rLen : Int) := by
    rcases hc with hc | hc
    · left; omega
    · right; rw [hc]
  refine ⟨⟨Or.inr hsp, hrl, fun x => Or.inl (by omega)⟩, ?_, ?_⟩
  · intro start l' h0 h1 hl'
    have hs : isInt64 start := by unfold isInt64 minInt64 maxInt64; omega
    obtain ⟨r, hr, -, hcont, -⟩ := node.dropPrefix_spec hwl start hs
    rw [hl'] at hr
    cases hr
    right
    rw [wrap64_eq_self (by unfold isInt64 minInt64 maxInt64; omega), hcont,
      List.length_drop]
    omega
  · intro end_ r' h0 h1 hr'
    rw [rLength_eq hwr hc,
      wrap64_eq_self (x := split + (right.content.length : Int))
        (by unfold isInt64 minInt64 maxInt64; omega)] at h1
    have hw : wrap64 (end_ - split) = end_ - split :=
      wrap64_eq_self (by unfold isInt64 minInt64 maxInt64; omega)
    rw [hw] at hr' ⊢
    obtain ⟨r, hr, -, hcont, -⟩ :=
      node.dropPostfix_spec hwr (end_ - split) (by unfold isInt64 minInt64 maxInt64; omega)
    rw [hr'] at hr
    cases hr
    right
    rw [hcont, List.length_take]
    omega

theorem built_metadata_exact_witness :
    tree.WF ∧ tree.length = (tree.content.length : Int) ∧
    ∀ left right split rLen d, tree = node.concat left right split rLen d →
      (HintOK left split ∧ HintOK right (rLen : Int) ∧ ∀ x : node, HintOK x (-1)) ∧
      (∀ start l', 0 < start → start < split → left.dropPrefix start = some l' →
        HintOK l' (wrap64 (split - start))) ∧
      (∀ end_ r', split < end_ → end_ < wrap64 (split + rLength right rLen) →
        right.dropPostfix (wrap64 (end_ - split)) = some r' →
        HintOK r' (wrap64 (end_ - split))) :=
  built_metadata_exact tree
    (Built.conc lhs rhs (Built.leaf _ (by decide)) (Built.leaf _ (by decide)) (by decide))

/-- C6: on a well-formed node, a `slice` with `start ≤ 0`,
`end ≥ length(n)` and `start < end` returns the node itself. -/
theorem slice_full_range (n : node) (h : n.WF) (start end_ : Int)
    (hs : start ≤ 0) (he : n.length ≤ end_) (_hlt : start < end_) :
    n.slice start end_ = some n := by
  obtain ⟨r, hr, -, -, -, hfull⟩ := node.slice_spec h start end_
  rw [h.length_eq] at he
  rw [hr, hfull hs he]

theorem slice_full_range_witness :
    tree.WF ∧ (-100 : Int) ≤ 0 ∧ tree.length ≤ 100 ∧ (-100 : Int) < 100 ∧
    tree.slice (-100) 100 = some tree :=
  ⟨by decide, by decide, by decide, by decide,
    slice_full_range tree (by decide) (-100) 100 (by decide) (by decide) (by decide)⟩

/-- C7, as stated, fails: on the tree "123" + "456" the inverted range from
`4` to `minInt64` does not give `emptyNode` but the leaf "56", because the
shift `end - c.split` wraps around to `2^63 - 3`. -/
theorem slice_inverted_minInt64_end :
    tree.WF ∧ isInt64 4 ∧ isInt64 minInt64 ∧ (4 : Int) ≥ minInt64 ∧
    wrap64 (minInt64 - 3) = 2 ^ 63 - 3 ∧
    tree.slice 4 minInt64 = some (node.leaf [53, 54]) ∧
    tree.slice 4 minInt64 ≠ some emptyNode := by
  decide

/-- C7, amended: on a well-formed node and for `int64` indices, `slice`
returns `emptyNode` for every inverted or empty range `start ≥ end` whose
`end` is at least `minInt64 + min(start, length(n))` (the shift of `end`
then stays in `int64`), and for every range `start < end` that lies entirely
outside `[0, length(n))`. -/
theorem slice_empty_range (n : node) (h : n.WF) (start end_ : Int)
    (hs : isInt64 start) (he : isInt64 end_)
    (hr : (end_ ≤ start ∧ minInt64 + min start n.length ≤ end_) ∨
          (start < end_ ∧ (end_ ≤ 0 ∨ n.length ≤ start))) :
    n.slice start end_ = some emptyNode := by
  obtain ⟨r, hreq, hwr, -, hcont, -⟩ := node.slice_spec h start end_
  rw [h.length_eq] at hr
  have hs' := hs
  have he' := he
  unfold isInt64 minInt64 maxInt64 at hs' he'
  unfold minInt64 at hr
  have hsafe : ShiftSafe n.content.length start end_ := by
    refine ⟨hs, he, ?_, ?_⟩ <;> unfold minInt64 <;> omega
  rw [hreq, hwr.eq_emptyNode]
  rw [hcont hsafe]
  apply clampedSub_eq_nil
  omega

theorem slice_empty_range_witness :
    tree.WF ∧ isInt64 3 ∧ isInt64 2 ∧
    (((2 : Int) ≤ 3 ∧ minInt64 + min 3 tree.length ≤ 2) ∨
      ((3 : Int) < 2 ∧ ((2 : Int) ≤ 0 ∨ tree.length ≤ 3))) ∧
    tree.slice 3 2 = some emptyNode :=
  ⟨by decide, by decide, by decide, by decide,
    slice_empty_range tree (by decide) 3 2 (by decide) (by decide) (by decide)⟩

/-- C8: for nodes `a` and `b` that are not `emptyNode` and any hints,
`conc a b` is a `concat` of `a` and `b` whose depth is
`1 + max (depth a) (depth b)`; for two leaves the depth is `1`. -/
theorem conc_depth (a b : node) (ha : a ≠ emptyNode) (hb : b ≠ emptyNode)
    (lhsLength rhsLength : Int) :
    (∃ split rLen, conc a b lhsLength rhsLength
        = node.concat a b split rLen (1 + max a.depth b.depth)) ∧
    (conc a b lhsLength rhsLength).depth = 1 + max a.depth b.depth ∧
    ((∃ l, a = node.leaf l) → (∃ l, b = node.leaf l) →
      (conc a b lhsLength rhsLength).depth = 1) := by
  have hd : (if b.depth > a.depth then b.depth else a.depth) + 1
      = 1 + max a.depth b.depth := by
    split_ifs <;> omega
  rw [conc_of_ne ha hb, hd]
  refine ⟨⟨_, _, rfl⟩, rfl, ?_⟩
  rintro ⟨l1, rfl⟩ ⟨l2, rfl⟩
  simp [node.depth]

theorem conc_depth_witness :
    lhs ≠ emptyNode ∧ rhs ≠ emptyNode ∧
    (∃ split rLen, conc lhs rhs 0 0
        = node.concat lhs rhs split rLen (1 + max lhs.depth rhs.depth)) ∧
    (conc lhs rhs 0 0).depth = 1 + max lhs.depth rhs.depth ∧
    ((∃ l, lhs = node.leaf l) → (∃ l, rhs = node.leaf l) →
      (conc lhs rhs 0 0).depth = 1) :=
  ⟨by decide, by decide, conc_depth lhs rhs (by decide) (by decide) 0 0⟩

/-- C9: for well-formed `a` and `b`, `conc(a, b, 0, 0)` has `length()` equal
to `a.length() + b.length()` (the `int64` sum, which is the exact sum when
that is at most `maxInt64`) and content equal to the content of `a` followed
by the content of `b`; when neither is `emptyNode` it is the `concat` with
`left = a`, `right = b` and `split = a.length()`. -/
theorem conc_no_hints (a b : node) (ha : a.WF) (hb : b.WF) :
    (conc a b 0 0).length = wrap64 (a.length + b.length) ∧
    (a.length + b.length ≤ maxInt64 → (conc a b 0 0).length = a.length + b.length) ∧
    (conc a b 0 0).content = a.content ++ b.content ∧
    (a ≠ emptyNode → b ≠ emptyNode →
      ∃ rLen d, conc a b 0 0 = node.concat a b a.length rLen d) := by
  have hla := ha.length_le
  have hlb := hb.length_le
  have hea := ha.length_eq
  have heb := hb.length_eq
  have hlen : (conc a b 0 0).length = wrap64 (a.length + b.length) := by
    by_cases h1 : a = emptyNode
    · have h0 : a.length = 0 := by rw [h1]; rfl
      rw [h0, zero_add, wrap64_eq_self (by unfold isInt64 minInt64; omega)]
      simp [conc, h1]
    by_cases h2 : b = emptyNode
    · have h0 : b.length = 0 := by rw [h2]; rfl
      rw [h0, add_zero, wrap64_eq_self (by unfold isInt64 minInt64; omega)]
      simp [conc, h1, h2]
    rw [conc_of_ne h1 h2]
    have hbpos : 0 < b.content.length := List.length_pos.mpr (hb.content_ne_nil h2)
    simp only [node.length, le_refl, if_true]
    congr 2
    by_cases hbig : b.length > maxRLen
    · simp [hbig, toRLenT]
    · have hcast := toRLenT_eq (x := b.length) (by omega) (by omega)
      have hpos : toRLenT b.length > 0 := by omega
      rw [if_neg hbig, if_pos hpos, hcast]
  refine ⟨hlen, fun hsum => ?_, content_conc a b 0 0, fun h1 h2 => ?_⟩
  · rw [hlen]
    exact wrap64_eq_self (by unfold isInt64 minInt64; omega)
  · rw [conc_of_ne h1 h2]
    exact ⟨_, _, rfl⟩

theorem conc_no_hints_witness :
    lhs.WF ∧ rhs.WF ∧
    (conc lhs rhs 0 0).length = wrap64 (lhs.length + rhs.length) ∧
    (lhs.length + rhs.length ≤ maxInt64 →
      (conc lhs rhs 0 0).length = lhs.length + rhs.length) ∧
    (conc lhs rhs 0 0).content = lhs.content ++ rhs.content ∧
    (lhs ≠ emptyNode → rhs ≠ emptyNode →
      ∃ rLen d, conc lhs rhs 0 0 = node.concat lhs rhs lhs.length rLen d) :=
  ⟨by decide, by decide, conc_no_hints lhs rhs (by decide) (by decide)⟩

/-- C10: `emptyNode` is a two-sided identity of `conc`, for any hints: the
other argument is returned as it is. -/
theorem conc_emptyNode (x : node) (lhsLength rhsLength : Int) :
    conc emptyNode x lhsLength rhsLength = x ∧
    conc x emptyNode lhsLength rhsLength = x := by
  constructor
  · simp [conc]
  · by_cases h : x = emptyNode
    · simp [conc, h]
    · simp [conc, h]

/-! ## `WriteTo` -/

theorem node.WriteTo_count_isInt64 {σ ε : Type} (w : Writer σ ε) (n : node) (s : σ) :
    isInt64 (n.WriteTo w s).2.1 := by
  cases n with
  | leaf l => exact isInt64_wrap64 _
  | concat left right split rLen d =>
    simp only [node.WriteTo]
    cases (left.WriteTo w s).2.2 with
    | none => exact isInt64_wrap64 _
    | some e => exact isInt64_wrap64 _

theorem acceptsAll_bufferWriter : AcceptsAll bufferWriter id :=
  fun _ _ => ⟨rfl, rfl, rfl⟩

/-- C11: `concat.WriteTo` on failure. If writing `left` returns the count `m`
with an error, the `concat` returns that count and that error, the sink is
left as the write of `left` left it, and the result is the same whatever the
right subtree is (it is never written). If writing `left` returns `m` without
error and writing `right` then returns `m2` and `e2`, the `concat` returns
the `int64` sum `m + m2` (the exact sum when it is an `int64`) and `e2`,
whether `e2` is an error or not. -/
theorem concat_WriteTo_asymmetric {σ ε : Type} (w : Writer σ ε)
    (left right : node) (split : Int) (rLen treedepth : Nat) (s : σ) :
    (∀ s1 m e, left.WriteTo w s = (s1, m, some e) →
      (node.concat left right split rLen treedepth).WriteTo w s = (s1, m, some e) ∧
      ∀ right' : node,
        (node.concat left right' split rLen treedepth).WriteTo w s = (s1, m, some e)) ∧
    (∀ s1 m s2 m2 e2, left.WriteTo w s = (s1, m, none) →
      right.WriteTo w s1 = (s2, m2, e2) →
      (node.concat left right split rLen treedepth).WriteTo w s
        = (s2, wrap64 (m + m2), e2) ∧
      (isInt64 (m + m2) →
        (node.concat left right split rLen treedepth).WriteTo w s = (s2, m + m2, e2))) := by
  have hm := node.WriteTo_count_isInt64 w left s
  constructor
  · intro s1 m e hl
    rw [hl] at hm
    have h0 : wrap64 (0 + m) = m := by rw [zero_add]; exact wrap64_eq_self hm
    refine ⟨?_, fun right' => ?_⟩ <;> simp only [node.WriteTo, hl, h0]
  · intro s1 m s2 m2 e2 hl hr
    rw [hl] at hm
    have h0 : wrap64 (0 + m) = m := by rw [zero_add]; exact wrap64_eq_self hm
    have h1 : (node.concat left right split rLen treedepth).WriteTo w s
        = (s2, wrap64 (m + m2), e2) := by
      simp only [node.WriteTo, hl, hr, h0]
    exact ⟨h1, fun hsum => by rw [h1, wrap64_eq_self hsum]⟩

theorem concat_WriteTo_asymmetric_witness :
    lhs.WriteTo (limitedWriter 2) [] = ([49, 50], 2, some ()) ∧
    (node.concat lhs rhs 3 3 1).WriteTo (limitedWriter 2) [] = ([49, 50], 2, some ()) ∧
    lhs.WriteTo (limitedWriter 4) [] = ([49, 50, 51], 3, none) ∧
    rhs.WriteTo (limitedWriter 4) [49, 50, 51] = ([49, 50, 51, 52], 1, some ()) ∧
    (node.concat lhs rhs 3 3 1).WriteTo (limitedWriter 4) []
      = ([49, 50, 51, 52], wrap64 (3 + 1), some ()) :=
  ⟨by decide,
    ((concat_WriteTo_asymmetric (limitedWriter 2) lhs rhs 3 3 1 []).1
      [49, 50] 2 () (by decide)).1,
    by decide, by decide,
    ((concat_WriteTo_asymmetric (limitedWriter 4) lhs rhs 3 3 1 []).2
      [49, 50, 51] 3 [49, 50, 51, 52] 1 (some ()) (by decide) (by decide)).1⟩

/-- C12: on a well-formed node and a sink that accepts every write in full
without error, `WriteTo` appends the content of the node, the leaves from
left to right, to what the sink holds, and returns the count `n.length()`
and no error. -/
theorem WriteTo_accepting_sink {σ ε : Type} (n : node) (h : n.WF)
    (w : Writer σ ε) (view : σ → List UInt8) (hw : AcceptsAll w view) (s : σ) :
    view (n.WriteTo w s).1 = view s ++ n.content ∧
    (n.WriteTo w s).2.1 = n.length ∧
    (n.WriteTo w s).2.2 = none := by
  induction n generalizing s with
  | leaf l =>
    obtain ⟨h1, h2, h3⟩ := hw s l
    simp only [node.WF] at h
    refine ⟨h1, ?_, h3⟩
    simp only [node.WriteTo, node.length, h2]
    exact wrap64_eq_self (by unfold isInt64 minInt64; omega)
  | concat left right split rLen d ihl ihr =>
    have hlen := h.length_eq
    simp only [node.WF] at h
    obtain ⟨hwl, hwr, -, -, -, -, -, hsum⟩ := h
    obtain ⟨hl1, hl2, hl3⟩ := ihl hwl s
    obtain ⟨hr1, hr2, hr3⟩ := ihr hwr (left.WriteTo w s).1
    rw [hwl.length_eq] at hl2
    rw [hwr.length_eq] at hr2
    have h0 : wrap64 (0 + (left.content.length : Int)) = (left.content.length : Int) := by
      rw [zero_add]
      exact wrap64_eq_self (by unfold isInt64 minInt64; omega)
    simp only [node.WriteTo]
    rw [hl3]
    dsimp only
    rw [hl2, h0, hr2]
    refine ⟨?_, ?_, hr3⟩
    · rw [hr1, hl1, node.content, List.append_assoc]
    · rw [hlen, node.content, List.length_append]
      push_cast
      exact wrap64_eq_self (by unfold isInt64 minInt64; omega)

theorem WriteTo_accepting_sink_witness :
    tree.WF ∧ AcceptsAll bufferWriter id ∧
    id (tree.WriteTo bufferWriter []).1 = id [] ++ tree.content ∧
    (tree.WriteTo bufferWriter []).2.1 = tree.length ∧
    (tree.WriteTo bufferWriter []).2.2 = none :=
  ⟨by decide, acceptsAll_bufferWriter,
    WriteTo_accepting_sink tree (by decide) bufferWriter id acceptsAll_bufferWriter []⟩

/-! ## `dropPrefix`, `dropPostfix` and `slice` as nodes -/

theorem resolve_hint {a : node} (ha : a.WF) {hint : Int} (h : HintOK a hint) :
    (if hint ≤ 0 then a.length else hint) = (a.content.length : Int) := by
  by_cases h0 : hint ≤ 0
  · rw [if_pos h0]; exact ha.length_eq
  · rw [if_neg h0]
    rcases h with h | h
    · exact absurd h h0
    · exact h

theorem conc_hint_eq {a b : node} (ha : a.WF) (hb : b.WF) {hl hl' hr hr' : Int}
    (h1 : HintOK a hl) (h1' : HintOK a hl') (h2 : HintOK b hr) (h2' : HintOK b hr') :
    conc a b hl hr = conc a b hl' hr' := by
  by_cases e1 : a = emptyNode
  · simp [conc, e1]
  by_cases e2 : b = emptyNode
  · simp [conc, e1, e2]
  rw [conc_of_ne e1 e2, conc_of_ne e1 e2, resolve_hint ha h1, resolve_hint ha h1',
    resolve_hint hb h2, resolve_hint hb h2']

theorem HintOK_rLen {right : node} {rLen : Nat}
    (hc : rLen = 0 ∨ rLen = right.content.length) : HintOK right (rLen : Int) := by
  rcases hc with hc | hc
  · left; omega
  · right; rw [hc]

/-- C13: on a well-formed node, for `int64` indices with
`end ≥ n.length()`, `dropPrefix(start)` and `slice(start, end)` return the
same node: the same tree with the same `split`, `rLen` and `treedepth` in
every `concat`. -/
theorem dropPrefix_eq_slice (n : node) (h : n.WF) (start end_ : Int)
    (hs : isInt64 start) (he : isInt64 end_) (hge : n.length ≤ end_) :
    n.dropPrefix start = n.slice start end_ := by
  induction n generalizing start end_ with
  | leaf l =>
    simp only [node.length] at hge
    simp only [node.dropPrefix, node.slice]
    have hs' : (if start < 0 then 0 else start) = max start 0 := by
      split_ifs <;> omega
    have he' : (if end_ > (l.length : Int) then (l.length : Int) else end_)
        = (l.length : Int) := by
      split_ifs <;> omega
    rw [hs', he']
    by_cases h1 : start ≥ (l.length : Int)
    · rw [if_pos h1, if_pos (by omega)]
    · rw [if_neg h1]
      by_cases h2 : start ≤ 0
      · rw [if_pos h2]
        have h3 : max start 0 = 0 := by omega
        rw [h3]
        by_cases h4 : (0 : Int) ≥ (l.length : Int)
        · rw [if_pos h4]
          have : l.length = 0 := by omega
          rw [List.length_eq_zero.mp this]; rfl
        · rw [if_neg h4, goSlice_eq_some l (le_refl _) (by omega) (le_refl _)]
          have := subseq_eq_self l (l.length : Int).toNat (by omega)
          simp only [Int.toNat_zero, Option.map_some', this]
      · have h3 : max start 0 = start := by omega
        rw [if_neg h2, h3, if_neg h1]
  | concat left right split rLen d ihl ihr =>
    have hlen := h.length_eq
    simp only [node.WF] at h
    obtain ⟨hwl, hwr, hlne, hrne, hsp, hc, hcm, hsum⟩ := h
    have hlpos : 0 < left.content.length := List.length_pos.mpr hlne
    have hrpos : 0 < right.content.length := List.length_pos.mpr hrne
    have hsum' := hsum
    unfold maxInt64 at hsum'
    have hs' := hs
    have he' := he
    unfold isInt64 minInt64 maxInt64 at hs' he'
    simp only [node.content, List.length_append] at hlen
    push_cast at hlen
    rw [hlen] at hge
    have hcl : wrap64 (split + right.length)
        = (left.content.length : Int) + (right.content.length : Int) := by
      rw [hwr.length_eq, hsp]
      exact wrap64_eq_self (by unfold isInt64 minInt64 maxInt64; omega)
    simp only [node.dropPrefix, node.slice, hcl]
    have cB : ¬ end_ ≤ split := by omega
    by_cases h1 : start ≤ 0
    · have cA : ¬ start > split := by omega
      rw [if_pos h1, if_neg cA, if_neg cB, if_pos ⟨h1, hge⟩]
    · rw [if_neg h1]
      have cC : ¬ (start ≤ 0 ∧
          end_ ≥ (left.content.length : Int) + (right.content.length : Int)) :=
        fun hh => h1 hh.1
      have cL : start > 0 ∨ end_ < split := Or.inl (by omega)
      by_cases h3 : start > split
      · rw [if_neg (by omega), if_pos h3]
        have hw : wrap64 (end_ - split) = end_ - split :=
          wrap64_eq_self (by unfold isInt64 minInt64 maxInt64; omega)
        exact ihr hwr _ _ (isInt64_wrap64 _) (isInt64_wrap64 _)
          (by rw [hw, hwr.length_eq]; omega)
      · have cR : ¬ (start > split ∨
            end_ < (left.content.length : Int) + (right.content.length : Int)) := by omega
        rw [if_neg h3, if_neg cB, if_neg cC]
        have hsl := ihl hwl start end_ hs he (by rw [hwl.length_eq]; omega)
        obtain ⟨l', hl', hwl', hcl', -⟩ := node.dropPrefix_spec hwl start hs
        rw [← hsl, hl']
        simp only [cL, cR, if_true, if_false]
        by_cases h2 : start < split
        · rw [if_pos h2]
          congr 1
          apply conc_hint_eq hwl' hwr _ (Or.inl (by omega)) (HintOK_rLen hc) (HintOK_rLen hc)
          right
          rw [wrap64_eq_self (by unfold isInt64 minInt64 maxInt64; omega), hcl',
            List.length_drop]
          omega
        · rw [if_neg h2]
          have hst : start = split := by omega
          have hl0 : l' = emptyNode := by
            apply hwl'.eq_emptyNode
            rw [hcl']
            exact List.drop_eq_nil_of_le (by omega)
          have hw : wrap64 (start - split) = 0 := by
            rw [hst, sub_self]; rfl
          obtain ⟨r', hr', -, -, hr0⟩ :=
            node.dropPrefix_spec hwr 0 (by unfold isInt64 minInt64 maxInt64; omega)
          rw [hw, hr', hr0 (le_refl _), hl0]
          simp [conc]

theorem dropPrefix_eq_slice_witness :
    tree.WF ∧ isInt64 2 ∧ isInt64 100 ∧ tree.length ≤ 100 ∧
    tree.dropPrefix 2 = tree.slice 2 100 :=
  ⟨by decide, by decide, by decide, by decide,
    dropPrefix_eq_slice tree (by decide) 2 100 (by decide) (by decide) (by decide)⟩

/-- Where the shift of `start` cannot wrap around, `dropPostfix(end)` and
`slice(start, end)` with `start ≤ 0` return the same node. -/
theorem node.dropPostfix_eq_slice_of_no_wrap {n : node} (h : n.WF) (start end_ : Int)
    (hs : isInt64 start) (he : isInt64 end_) (h0 : start ≤ 0)
    (hw : minInt64 + min end_ (n.content.length : Int) ≤ start) :
    n.dropPostfix end_ = n.slice start end_ := by
  induction n generalizing start end_ with
  | leaf l =>
    simp only [node.dropPostfix, node.slice]
    have hs' : (if start < 0 then 0 else start) = 0 := by
      split_ifs <;> omega
    have he' : (if end_ > (l.length : Int) then (l.length : Int) else end_)
        = min end_ (l.length : Int) := by
      split_ifs <;> omega
    rw [hs', he']
    by_cases h1 : end_ ≥ (l.length : Int)
    · rw [if_pos h1]
      have h3 : min end_ (l.length : Int) = (l.length : Int) := by omega
      rw [h3]
      by_cases h4 : (0 : Int) ≥ (l.length : Int)
      · rw [if_pos h4]
        have : l.length = 0 := by omega
        rw [List.length_eq_zero.mp this]; rfl
      · rw [if_neg h4, goSlice_eq_some l (le_refl _) (by omega) (le_refl _)]
        have := subseq_eq_self l (l.length : Int).toNat (by omega)
        simp only [Int.toNat_zero, Option.map_some', this]
    · have h3 : min end_ (l.length : Int) = end_ := by omega
      rw [if_neg h1, h3]
  | concat left right split rLen d ihl ihr =>
    simp only [node.WF] at h
    obtain ⟨hwl, hwr, hlne, hrne, hsp, hc, hcm, hsum⟩ := h
    have hlpos : 0 < left.content.length := List.length_pos.mpr hlne
    have hrpos : 0 < right.content.length := List.length_pos.mpr hrne
    have hsum' := hsum
    unfold maxInt64 at hsum'
    have hs' := hs
    have he' := he
    unfold isInt64 minInt64 maxInt64 at hs' he'
    simp only [node.content, List.length_append] at hw
    push_cast at hw
    unfold minInt64 at hw
    have hcl : wrap64 (split + right.length)
        = (left.content.length : Int) + (right.content.length : Int) := by
      rw [hwr.length_eq, hsp]
      exact wrap64_eq_self (by unfold isInt64 minInt64 maxInt64; omega)
    have hcr : wrap64 (split + rLength right rLen)
        = (left.content.length : Int) + (right.content.length : Int) := by
      rw [rLength_eq hwr hc, hsp]
      exact wrap64_eq_self (by unfold isInt64 minInt64 maxInt64; omega)
    simp only [node.dropPostfix, node.slice, hcl, hcr]
    have cA : ¬ start > split := by omega
    rw [if_neg cA]
    by_cases h1 : end_ ≤ 0
    · rw [if_pos h1, if_pos (by omega)]
      obtain ⟨r, hr, -, -, -, hr0⟩ := node.dropPostfix_spec hwl end_ he
      rw [← ihl hwl start end_ hs he h0 (by unfold minInt64; omega), hr, hr0 h1]
    · rw [if_neg h1]
      by_cases h2 : end_ ≤ split
      · rw [if_pos h2, if_pos h2]
        exact ihl hwl start end_ hs he h0 (by unfold minInt64; omega)
      · rw [if_neg h2, if_neg h2]
        by_cases h3 : end_ ≥ (left.content.length : Int) + (right.content.length : Int)
        · rw [if_pos h3, if_pos ⟨h0, h3⟩]
        · have cC : ¬ (start ≤ 0 ∧
              end_ ≥ (left.content.length : Int) + (right.content.length : Int)) :=
            fun hh => h3 hh.2
          have cL : ¬ (start > 0 ∨ end_ < split) := by omega
          have cR : start > split ∨
              end_ < (left.content.length : Int) + (right.content.length : Int) :=
            Or.inr (by omega)
          have hw1 : wrap64 (start - split) = start - split :=
            wrap64_eq_self (by unfold isInt64 minInt64 maxInt64; omega)
          have hw2 : wrap64 (end_ - split) = end_ - split :=
            wrap64_eq_self (by unfold isInt64 minInt64 maxInt64; omega)
          have he2 : isInt64 (end_ - split) := by
            unfold isInt64 minInt64 maxInt64; omega
          rw [if_neg h3, if_neg cC]
          simp only [cL, cR, if_true, if_false, hw1, hw2]
          obtain ⟨r', hr', hwr', hcr', -, -⟩ := node.dropPostfix_spec hwr (end_ - split) he2
          rw [← ihr hwr (start - split) (end_ - split)
            (by unfold isInt64 minInt64 maxInt64; omega) he2 (by omega)
            (by unfold minInt64; omega), hr']
          dsimp only
          congr 1
          apply conc_hint_eq hwl hwr' (Or.inr hsp) (Or.inr hsp) _ (Or.inl (by omega))
          right
          rw [hcr', List.length_take]
          omega

/-- C14: `dropPostfix(end)` and `slice(start, end)` with `start ≤ 0` do not
return the same node for every `int64` start. On the tree "123" + "456",
`dropPostfix(4)` is the `concat` of "123" and "4", and `slice(minInt64, 4)`
is the leaf "123": the shift `start - c.split` of `concat.slice` wraps
around. -/
theorem dropPostfix_ne_slice_minInt64 :
    tree.WF ∧ isInt64 minInt64 ∧ isInt64 4 ∧ minInt64 ≤ 0 ∧
    tree.dropPostfix 4 = some (node.concat lhs (node.leaf [52]) 3 1 1) ∧
    tree.slice minInt64 4 = some lhs ∧
    tree.dropPostfix 4 ≠ tree.slice minInt64 4 := by
  decide

/-- C15: on a well-formed node and for `0 ≤ k ≤ n.length()`, the content of
`dropPostfix(k)` followed by the content of `dropPrefix(k)` is the content of
`n`, and the two lengths add up to `n.length()`. -/
theorem dropPostfix_dropPrefix_rejoin (n : node) (h : n.WF) (k : Int)
    (h0 : 0 ≤ k) (hk : k ≤ n.length) :
    ∃ a b, n.dropPostfix k = some a ∧ n.dropPrefix k = some b ∧
      a.content ++ b.content = n.content ∧ a.length + b.length = n.length := by
  have hle := h.length_le
  have hlen := h.length_eq
  have hk64 : isInt64 k := by unfold isInt64 minInt64; omega
  obtain ⟨a, ha, hwa, hca, -, -⟩ := node.dropPostfix_spec h k hk64
  obtain ⟨b, hb, hwb, hcb, -⟩ := node.dropPrefix_spec h k hk64
  have hcat : a.content ++ b.content = n.content := by
    rw [hca, hcb, List.take_append_drop]
  refine ⟨a, b, ha, hb, hcat, ?_⟩
  rw [hwa.length_eq, hwb.length_eq, hlen, ← hcat, List.length_append]
  push_cast
  rfl

theorem dropPostfix_dropPrefix_rejoin_witness :
    tree.WF ∧ (0 : Int) ≤ 2 ∧ 2 ≤ tree.length ∧
    ∃ a b, tree.dropPostfix 2 = some a ∧ tree.dropPrefix 2 = some b ∧
      a.content ++ b.content = tree.content ∧ a.length + b.length = tree.length :=
  ⟨by decide, by decide, by decide,
    dropPostfix_dropPrefix_rejoin tree (by decide) 2 (by decide) (by decide)⟩

/-- C16, as stated, fails: with the right hint `7` on the leaves "123" and
"456", `conc` stores `rLen = 7`, and `length()` of the result is `10`, not
`a.length() + b.length() = 6`. -/
theorem conc_wrong_hint_length :
    lhs.WF ∧ rhs.WF ∧ lhs ≠ emptyNode ∧ rhs ≠ emptyNode ∧
    conc lhs rhs 0 7 = node.concat lhs rhs 3 7 1 ∧
    (conc lhs rhs 0 7).length = 10 ∧ lhs.length + rhs.length = 6 := by
  decide

/-- C16, amended: for well-formed `a` and `b` that are not `emptyNode` and
any hints, with `r` the resolved right length (the hint if positive, else
`b.length()`), `r ≥ 1` and `conc` stores `rLen = r` when `r ≤ 2^32 - 1` and
`rLen = 0` when `r > 2^32 - 1`; and when each hint is not positive or is the
true length, `length()` of the result is the `int64` sum
`a.length() + b.length()`, the exact sum when that is at most `maxInt64`. -/
theorem conc_rLen_cache (a b : node) (ha : a.WF) (hb : b.WF)
    (hane : a ≠ emptyNode) (hbne : b ≠ emptyNode) (lhsLength rhsLength : Int) :
    ∃ split rLen d, conc a b lhsLength rhsLength = node.concat a b split rLen d ∧
      1 ≤ (if rhsLength ≤ 0 then b.length else rhsLength) ∧
      ((if rhsLength ≤ 0 then b.length else rhsLength) ≤ maxRLen →
        (rLen : Int) = (if rhsLength ≤ 0 then b.length else rhsLength)) ∧
      (maxRLen < (if rhsLength ≤ 0 then b.length else rhsLength) → rLen = 0) ∧
      (HintOK a lhsLength → HintOK b rhsLength →
        (conc a b lhsLength rhsLength).length = wrap64 (a.length + b.length) ∧
        (a.length + b.length ≤ maxInt64 →
          (conc a b lhsLength rhsLength).length = a.length + b.length)) := by
  have hbpos : 0 < b.content.length := List.length_pos.mpr (hb.content_ne_nil hbne)
  have hbl := hb.length_eq
  have hr1 : 1 ≤ (if rhsLength ≤ 0 then b.length else rhsLength) := by
    split_ifs <;> omega
  rw [conc_of_ne hane hbne]
  refine ⟨_, _, _, rfl, hr1, fun hsmall => ?_, fun hbig => ?_, fun h1 h2 => ?_⟩
  · rw [if_neg (by omega), toRLenT_eq (by omega) hsmall]
  · rw [if_pos hbig]; rfl
  · have hlen : (node.concat a b (if lhsLength ≤ 0 then a.length else lhsLength)
          (toRLenT (if (if rhsLength ≤ 0 then b.length else rhsLength) > maxRLen then 0
            else (if rhsLength ≤ 0 then b.length else rhsLength)))
          ((if b.depth > a.depth then b.depth else a.depth) + 1)).length
        = wrap64 (a.length + b.length) := by
      rw [resolve_hint ha h1, resolve_hint hb h2, ha.length_eq, hbl]
      simp only [node.length]
      congr 2
      by_cases hbig : (b.content.length : Int) > maxRLen
      · rw [if_pos hbig]
        simp [toRLenT, hbl]
      · have hcast := toRLenT_eq (x := (b.content.length : Int)) (by omega) (by omega)
        have hpos : toRLenT (b.content.length : Int) > 0 := by omega
        rw [if_neg hbig, if_pos hpos, hcast]
    refine ⟨hlen, fun hsum => ?_⟩
    rw [hlen]
    have hla := ha.length_eq
    exact wrap64_eq_self (by unfold isInt64 minInt64; omega)

theorem conc_rLen_cache_witness :
    lhs.WF ∧ rhs.WF ∧ lhs ≠ emptyNode ∧ rhs ≠ emptyNode ∧
    ∃ split rLen d, conc lhs rhs 0 3 = node.concat lhs rhs split rLen d ∧
      1 ≤ (if (3 : Int) ≤ 0 then rhs.length else 3) ∧
      ((if (3 : Int) ≤ 0 then rhs.length else 3) ≤ maxRLen →
        (rLen : Int) = (if (3 : Int) ≤ 0 then rhs.length else 3)) ∧
      (maxRLen < (if (3 : Int) ≤ 0 then rhs.length else 3) → rLen = 0) ∧
      (HintOK lhs 0 → HintOK rhs 3 →
        (conc lhs rhs 0 3).length = wrap64 (lhs.length + rhs.length) ∧
        (lhs.length + rhs.length ≤ maxInt64 →
          (conc lhs rhs 0 3).length = lhs.length + rhs.length)) :=
  ⟨by decide, by decide, by decide, by decide,
    conc_rLen_cache lhs rhs (by decide) (by decide) (by decide) (by decide) 0 3⟩

/-- C17: on a well-formed `concat` `c`, `dropPrefix(c.split)` returns
`c.right` and `dropPostfix(c.split)` returns `c.left`; for `0 < k < c.split`,
`dropPrefix(k)` is a `concat` with right child `c.right` and split
`c.split - k`; for `c.split < k < c.length()`, `dropPostfix(k)` is a `concat`
with left child `c.left` and split `c.split`. -/
theorem concat_reuses_subtrees (left right : node) (split : Int) (rLen treedepth : Nat)
    (h : (node.concat left right split rLen treedepth).WF) (k j : Int) :
    (node.concat left right split rLen treedepth).dropPrefix split = some right ∧
    (node.concat left right split rLen treedepth).dropPostfix split = some left ∧
    (0 < k → k < split → ∃ l' rLen' d',
      (node.concat left right split rLen treedepth).dropPrefix k
        = some (node.concat l' right (split - k) rLen' d')) ∧
    (split < j → j < (node.concat left right split rLen treedepth).length →
      ∃ r' rLen' d',
        (node.concat left right split rLen treedepth).dropPostfix j
          = some (node.concat left r' split rLen' d')) := by
  have hlen := h.length_eq
  simp only [node.WF] at h
  obtain ⟨hwl, hwr, hlne, hrne, hsp, hc, hcm, hsum⟩ := h
  have hlpos : 0 < left.content.length := List.length_pos.mpr hlne
  have hrpos : 0 < right.content.length := List.length_pos.mpr hrne
  have hsum' := hsum
  unfold maxInt64 at hsum'
  simp only [node.content, List.length_append] at hlen
  push_cast at hlen
  have hcr : wrap64 (split + rLength right rLen)
      = (left.content.length : Int) + (right.content.length : Int) := by
    rw [rLength_eq hwr hc, hsp]
    exact wrap64_eq_self (by unfold isInt64 minInt64 maxInt64; omega)
  have hl0 : (left : node) ≠ emptyNode := fun e => hlne (by rw [e]; rfl)
  have hr0 : (right : node) ≠ emptyNode := fun e => hrne (by rw [e]; rfl)
  refine ⟨?_, ?_, fun h0 h1 => ?_, fun h0 h1 => ?_⟩
  · simp only [node.dropPrefix]
    rw [if_neg (by omega), if_neg (by omega), sub_self]
    obtain ⟨r, hr, -, -, hr'⟩ :=
      node.dropPrefix_spec hwr 0 (by unfold isInt64 minInt64 maxInt64; omega)
    have hw : wrap64 0 = 0 := rfl
    rw [hw, hr, hr' (le_refl _)]
  · simp only [node.dropPostfix]
    rw [if_neg (by omega), if_pos (le_refl _)]
    obtain ⟨r, hr, -, -, hr', -⟩ :=
      node.dropPostfix_spec hwl split (by unfold isInt64 minInt64 maxInt64; omega)
    rw [hr, hr' (by rw [hwl.length_eq]; omega)]
  · simp only [node.dropPrefix]
    rw [if_neg (by omega), if_pos h1]
    obtain ⟨l', hl', hwl', hcl', -⟩ :=
      node.dropPrefix_spec hwl k (by unfold isInt64 minInt64 maxInt64; omega)
    have hlen' : l'.content.length = left.content.length - k.toNat := by
      rw [hcl', List.length_drop]
    have hne : l' ≠ emptyNode := by
      intro e
      rw [e, content_emptyNode] at hlen'
      simp only [List.length_nil] at hlen'
      omega
    have hw : wrap64 (split - k) = split - k :=
      wrap64_eq_self (by unfold isInt64 minInt64 maxInt64; omega)
    rw [hl']
    dsimp only
    rw [conc_of_ne hne hr0, hw, if_neg (by omega)]
    exact ⟨_, _, _, rfl⟩
  · rw [hlen] at h1
    simp only [node.dropPostfix, hcr]
    rw [if_neg (by omega), if_neg (by omega), if_neg (by omega)]
    have hw : wrap64 (j - split) = j - split :=
      wrap64_eq_self (by unfold isInt64 minInt64 maxInt64; omega)
    rw [hw]
    obtain ⟨r', hr', hwr', hcr', -, -⟩ :=
      node.dropPostfix_spec hwr (j - split) (by unfold isInt64 minInt64 maxInt64; omega)
    have hlen' : r'.content.length = (j - split).toNat := by
      rw [hcr', List.length_take]; omega
    have hne : r' ≠ emptyNode := by
      intro e
      rw [e, content_emptyNode] at hlen'
      simp only [List.length_nil] at hlen'
      omega
    rw [hr']
    dsimp only
    rw [conc_of_ne hl0 hne, if_neg (by omega)]
    exact ⟨_, _, _, rfl⟩

theorem concat_reuses_subtrees_witness :
    (node.concat lhs rhs 3 3 1).WF ∧
    (node.concat lhs rhs 3 3 1).dropPrefix 3 = some rhs ∧
    (node.concat lhs rhs 3 3 1).dropPostfix 3 = some lhs ∧
    ((0 : Int) < 2 → (2 : Int) < 3 → ∃ l' rLen' d',
      (node.concat lhs rhs 3 3 1).dropPrefix 2
        = some (node.concat l' rhs (3 - 2) rLen' d')) ∧
    ((3 : Int) < 4 → 4 < (node.concat lhs rhs 3 3 1).length →
      ∃ r' rLen' d',
        (node.concat lhs rhs 3 3 1).dropPostfix 4
          = some (node.concat lhs r' 3 rLen' d')) :=
  ⟨by decide, concat_reuses_subtrees lhs rhs 3 3 1 (by decide) 2 4⟩

/-! ## Depth -/

theorem DepthOK_emptyNode : emptyNode.DepthOK := by
  simp [emptyNode, node.DepthOK]

theorem conc_DepthOK {a b : node} (ha : a.DepthOK) (hb : b.DepthOK) (hl hr : Int) :
    (conc a b hl hr).DepthOK ∧ (conc a b hl hr).depth ≤ 1 + max a.depth b.depth := by
  by_cases h1 : a = emptyNode
  · have : conc a b hl hr = b := by simp [conc, h1]
    rw [this]
    exact ⟨hb, by omega⟩
  by_cases h2 : b = emptyNode
  · have : conc a b hl hr = a := by simp [conc, h1, h2]
    rw [this]
    exact ⟨ha, by omega⟩
  have hd : (if b.depth > a.depth then b.depth else a.depth) + 1
      = 1 + max a.depth b.depth := by
    split_ifs <;> omega
  rw [conc_of_ne h1 h2, hd]
  simp only [node.DepthOK, node.depth]
  exact ⟨⟨ha, hb, trivial⟩, le_refl _⟩

theorem node.slice_depth (n : node) (h : n.DepthOK) (start end_ : Int) :
    ∃ r, n.slice start end_ = some r ∧ r.depth ≤ n.depth ∧ r.DepthOK := by
  induction n generalizing start end_ with
  | leaf l =>
    obtain ⟨r, hr, -⟩ := node.slice_total (node.leaf l) start end_
    have key : r.depth = 0 ∧ r.DepthOK := by
      simp only [node.slice] at hr
      split_ifs at hr
      all_goals first
        | (cases hr; exact ⟨rfl, DepthOK_emptyNode⟩)
        | (obtain ⟨x, -, rfl⟩ := Option.map_eq_some'.mp hr
           exact ⟨rfl, trivial⟩)
    exact ⟨r, hr, by rw [key.1]; exact Nat.zero_le _, key.2⟩
  | concat left right split rLen d ihl ihr =>
    simp only [node.DepthOK] at h
    obtain ⟨hdl, hdr, hd⟩ := h
    have hdc : (node.concat left right split rLen d).depth = d := rfl
    rw [hdc]
    simp only [node.slice]
    obtain ⟨l', hl', hnl, hol⟩ := ihl hdl start end_
    obtain ⟨r', hr', hnr, hor⟩ := ihr hdr (wrap64 (start - split)) (wrap64 (end_ - split))
    rw [hl', hr']
    by_cases hA : start > split
    · rw [if_pos hA]
      exact ⟨r', rfl, by omega, hor⟩
    rw [if_neg hA]
    by_cases hB : end_ ≤ split
    · rw [if_pos hB]
      exact ⟨l', rfl, by omega, hol⟩
    rw [if_neg hB]
    by_cases hC : start ≤ 0 ∧ end_ ≥ wrap64 (split + right.length)
    · rw [if_pos hC]
      refine ⟨_, rfl, le_refl _, ?_⟩
      simp only [node.DepthOK]
      exact ⟨hdl, hdr, hd⟩
    rw [if_neg hC]
    by_cases hc1 : start > 0 ∨ end_ < split <;>
    by_cases hc2 : start > split ∨ end_ < wrap64 (split + right.length) <;>
    simp only [hc1, hc2, if_true, if_false] <;>
    refine ⟨_, rfl, ?_, ?_⟩
    · have := (conc_DepthOK hol hor (-1) (-1)).2; omega
    · exact (conc_DepthOK hol hor _ _).1
    · have := (conc_DepthOK hol hdr (-1) (rLen : Int)).2; omega
    · exact (conc_DepthOK hol hdr _ _).1
    · have := (conc_DepthOK hdl hor split (-1)).2; omega
    · exact (conc_DepthOK hdl hor _ _).1
    · have := (conc_DepthOK hdl hdr split (rLen : Int)).2; omega
    · exact (conc_DepthOK hdl hdr _ _).1

theorem node.dropPrefix_depth (n : node) (h : n.DepthOK) (start : Int) :
    ∃ r, n.dropPrefix start = some r ∧ r.depth ≤ n.depth ∧ r.DepthOK := by
  induction n generalizing start with
  | leaf l =>
    obtain ⟨r, hr, -⟩ := node.dropPrefix_total (node.leaf l) start
    have key : r.depth = 0 ∧ r.DepthOK := by
      simp only [node.dropPrefix] at hr
      split_ifs at hr
      all_goals first
        | (cases hr; exact ⟨rfl, trivial⟩)
        | (obtain ⟨x, -, rfl⟩ := Option.map_eq_some'.mp hr
           exact ⟨rfl, trivial⟩)
    exact ⟨r, hr, by rw [key.1]; exact Nat.zero_le _, key.2⟩
  | concat left right split rLen d ihl ihr =>
    have hdc : (node.concat left right split rLen d).depth = d := rfl
    have hall := h
    simp only [node.DepthOK] at h
    obtain ⟨hdl, hdr, hd⟩ := h
    rw [hdc]
    simp only [node.dropPrefix]
    obtain ⟨l', hl', hnl, hol⟩ := ihl hdl start
    obtain ⟨r', hr', hnr, hor⟩ := ihr hdr (wrap64 (start - split))
    rw [hl', hr']
    split_ifs with h1 h2
    · exact ⟨_, rfl, le_refl _, hall⟩
    · refine ⟨_, rfl, ?_, (conc_DepthOK hol hdr _ _).1⟩
      have := (conc_DepthOK hol hdr (wrap64 (split - start)) (rLen : Int)).2
      omega
    · exact ⟨r', rfl, by omega, hor⟩

theorem node.dropPostfix_depth (n : node) (h : n.DepthOK) (end_ : Int) :
    ∃ r, n.dropPostfix end_ = some r ∧ r.depth ≤ n.depth ∧ r.DepthOK := by
  induction n generalizing end_ with
  | leaf l =>
    obtain ⟨r, hr, -⟩ := node.dropPostfix_total (node.leaf l) end_
    have key : r.depth = 0 ∧ r.DepthOK := by
      simp only [node.dropPostfix] at hr
      split_ifs at hr
      all_goals first
        | (cases hr; exact ⟨rfl, trivial⟩)
        | (obtain ⟨x, -, rfl⟩ := Option.map_eq_some'.mp hr
           exact ⟨rfl, trivial⟩)
    exact ⟨r, hr, by rw [key.1]; exact Nat.zero_le _, key.2⟩
  | concat left right split rLen d ihl ihr =>
    have hdc : (node.concat left right split rLen d).depth = d := rfl
    have hall := h
    simp only [node.DepthOK] at h
    obtain ⟨hdl, hdr, hd⟩ := h
    rw [hdc]
    simp only [node.dropPostfix]
    obtain ⟨l', hl', hnl, hol⟩ := ihl hdl end_
    obtain ⟨r', hr', hnr, hor⟩ := ihr hdr (wrap64 (end_ - split))
    rw [hl', hr']
    split_ifs with h1 h2 h3
    · exact ⟨_, rfl, Nat.zero_le _, DepthOK_emptyNode⟩
    · exact ⟨l', rfl, by omega, hol⟩
    · exact ⟨_, rfl, le_refl _, hall⟩
    · refine ⟨_, rfl, ?_, (conc_DepthOK hdl hor _ _).1⟩
      have := (conc_DepthOK hdl hor split (wrap64 (end_ - split))).2
      omega

/-- C18: on a node in which every `concat` stores as `treedepth` one more
than the larger depth of its children, `slice`, `dropPrefix` and
`dropPostfix` return, for all indices, a node whose `depth()` is at most
`n.depth()` and in which every `concat` still stores that value. -/
theorem depth_not_increased (n : node) (h : n.DepthOK) (start end_ : Int) :
    (∃ r, n.slice start end_ = some r ∧ r.depth ≤ n.depth ∧ r.DepthOK) ∧
    (∃ r, n.dropPrefix start = some r ∧ r.depth ≤ n.depth ∧ r.DepthOK) ∧
    (∃ r, n.dropPostfix end_ = some r ∧ r.depth ≤ n.depth ∧ r.DepthOK) :=
  ⟨node.slice_depth n h start end_, node.dropPrefix_depth n h start,
    node.dropPostfix_depth n h end_⟩

theorem depth_not_increased_witness :
    tree.DepthOK ∧
    (∃ r, tree.slice 2 5 = some r ∧ r.depth ≤ tree.depth ∧ r.DepthOK) ∧
    (∃ r, tree.dropPrefix 2 = some r ∧ r.depth ≤ tree.depth ∧ r.DepthOK) ∧
    (∃ r, tree.dropPostfix 5 = some r ∧ r.depth ≤ tree.depth ∧ r.DepthOK) :=
  ⟨by decide, depth_not_increased tree (by decide) 2 5⟩

/-! ## The shifted bounds of `concat.slice` -/

/-- C19: the shifted bound `start - c.split` of `concat.slice` does wrap
around. On the well-formed `concat` of "123" and "456" (`split = 3`) and the
range from `minInt64` to `4`, where `start < end`, Go's `start - c.split` is
`2^63 - 3` and not the difference `-2^63 - 3`, and the content of the result
is not the clamped range `content[0:4]`. -/
theorem slice_shift_wraps :
    (node.concat lhs rhs 3 3 1).WF ∧ isInt64 minInt64 ∧ isInt64 4 ∧ minInt64 < 4 ∧
    wrap64 (minInt64 - 3) ≠ minInt64 - 3 ∧
    wrap64 (4 - 3) = 4 - 3 ∧
    ((node.concat lhs rhs 3 3 1).slice minInt64 4).map node.content
      ≠ some (clampedSub (node.concat lhs rhs 3 3 1).content minInt64 4) := by
  decide

/-! ## Slice expressions -/

/-- C20: the slice expressions of the leaf operations are evaluated with
indices in range: `l[start:end]` in `leaf.slice` with
`0 ≤ start ≤ end ≤ len(l)` for the clamped bounds, `l[start:]` in
`leaf.dropPrefix` with `0 < start < len(l)` and `l[:end]` in
`leaf.dropPostfix` with `0 < end < len(l)`, so none of them fails; and
`slice`, `dropPrefix` and `dropPostfix` return a result on every leaf and
on every node, for all indices. -/
theorem slice_expressions_in_range (n : node) (l : List UInt8) (start end_ : Int) :
    (¬ (if start < 0 then 0 else start)
          ≥ (if end_ > (l.length : Int) then (l.length : Int) else end_) →
      0 ≤ (if start < 0 then 0 else start) ∧
      (if start < 0 then 0 else start)
        ≤ (if end_ > (l.length : Int) then (l.length : Int) else end_) ∧
      (if end_ > (l.length : Int) then (l.length : Int) else end_) ≤ (l.length : Int) ∧
      (goSlice l (if start < 0 then 0 else start)
        (if end_ > (l.length : Int) then (l.length : Int) else end_)).isSome) ∧
    (¬ start ≥ (l.length : Int) → ¬ start ≤ 0 →
      0 < start ∧ start < (l.length : Int) ∧ (goSlice l start (l.length : Int)).isSome) ∧
    (¬ end_ ≥ (l.length : Int) → ¬ end_ ≤ 0 →
      0 < end_ ∧ end_ < (l.length : Int) ∧ (goSlice l 0 end_).isSome) ∧
    ((node.leaf l).slice start end_).isSome ∧
    ((node.leaf l).dropPrefix start).isSome ∧
    ((node.leaf l).dropPostfix end_).isSome ∧
    (n.slice start end_).isSome ∧ (n.dropPrefix start).isSome ∧
    (n.dropPostfix end_).isSome := by
  have t1 : ∀ m : node, (m.slice start end_).isSome := fun m => by
    obtain ⟨r, hr, -⟩ := node.slice_total m start end_
    rw [hr]; rfl
  have t2 : ∀ m : node, (m.dropPrefix start).isSome := fun m => by
    obtain ⟨r, hr, -⟩ := node.dropPrefix_total m start
    rw [hr]; rfl
  have t3 : ∀ m : node, (m.dropPostfix end_).isSome := fun m => by
    obtain ⟨r, hr, -⟩ := node.dropPostfix_total m end_
    rw [hr]; rfl
  refine ⟨fun h => ?_, fun h1 h2 => ?_, fun h1 h2 => ?_, t1 _, t2 _, t3 _, t1 n, t2 n, t3 n⟩
  · have h0 : 0 ≤ (if start < 0 then 0 else start) := by split_ifs <;> omega
    have h2 : (if end_ > (l.length : Int) then (l.length : Int) else end_)
        ≤ (l.length : Int) := by split_ifs <;> omega
    refine ⟨h0, by omega, h2, ?_⟩
    rw [goSlice_eq_some l h0 (by omega) h2]; rfl
  · refine ⟨by omega, by omega, ?_⟩
    rw [goSlice_eq_some l (by omega) (by omega) (le_refl _)]; rfl
  · refine ⟨by omega, by omega, ?_⟩
    rw [goSlice_eq_some l (le_refl _) (by omega) (by omega)]; rfl

end Rope
